import Mathlib

/-!
Shallow embedding of the acbrun image/archive engine and container lifecycle
controller (package `acbrun`, files `tar.go`-style library part, digest part,
and `cmd/acbrun/main.go`), together with theorems settling the specification
claims about it.

Modelling conventions:
- Filesystem paths are represented as lists of path segments
  (`Path := List String`); `filepath.Join` followed by Go's lexical path
  cleaning is `cleanJoin`.
- The host filesystem is an association list from paths to nodes, most recent
  write first (`FS`); `os` calls become explicit state transitions on it.
  Symbolic links are stored as opaque nodes holding their verbatim target;
  path resolution through a symlink is not modelled (operations that would
  traverse a symlink are mapped to errors, which is only reachable outside
  the well-formedness hypotheses used below).
- Fallible operations return `Except`.
- Byte strings are `List Nat` with each element < 256 where it matters.
-/

namespace Acbrun

/-- A filesystem path, as its list of segments. -/
abbrev Path := List String

/-- One step of Go's lexical path cleaning (`filepath.Clean`): empty and `.`
segments are dropped, `..` pops the last accumulated segment (stopping at the
root), any other segment is appended. -/
def cleanSeg (acc : Path) (seg : String) : Path :=
  if seg = "" then acc
  else if seg = "." then acc
  else if seg = ".." then acc.dropLast
  else acc ++ [seg]

/-- `filepath.Join(dst, name)` for an absolute `dst`: concatenate and clean
lexically. Used by `ExtractTarGz` on `header.Name` and `header.Linkname`. -/
def cleanJoin (dst : Path) (name : Path) : Path :=
  (dst ++ name).foldl cleanSeg []

/-- A path segment that survives cleaning unchanged. -/
def cleanSegOk (s : String) : Bool :=
  !(s = "" || s = "." || s = "..")

/-- A path all of whose segments are plain (no `""`, `"."`, `".."`). -/
def pathClean (p : Path) : Bool :=
  p.all cleanSegOk

/-- A node of the modelled filesystem. `symlink` stores its target verbatim
(as written by `os.Symlink` and read back by `os.Readlink`), uninterpreted. -/
inductive Node
  | dir (mode : Nat)
  | file (mode : Nat) (content : List Nat)
  | symlink (target : Path)
  deriving DecidableEq, Repr

/-- The modelled filesystem: an association list, most recent write first. -/
abbrev FS := List (Path × Node)

/-- Look a path up in the filesystem (first match wins). -/
def FS.lookup (fs : FS) (p : Path) : Option Node :=
  match fs with
  | [] => none
  | (q, n) :: rest => if q = p then some n else FS.lookup rest p

/-- Write a node at a path (shadowing any previous node there). -/
def FS.insert (fs : FS) (p : Path) (n : Node) : FS :=
  (p, n) :: fs

/-- Whether `p` exists and is a directory. -/
def FS.isDir (fs : FS) (p : Path) : Bool :=
  match fs.lookup p with
  | some (.dir _) => true
  | _ => false

/-- Whether the parent directory of `p` exists as a directory (the implicit
precondition of `os.Mkdir`, `os.OpenFile(..., O_CREATE, ...)` and
`os.Symlink` at `p`). -/
def FS.parentIsDir (fs : FS) (p : Path) : Bool :=
  fs.isDir p.dropLast

/-- The tar entry type flags handled by `ExtractTarGz`'s `switch`; `other`
covers every remaining `header.Typeflag` value (mapped to the
"uknown type" fatal error). -/
inductive EntryType
  | dir
  | reg
  | link
  | symlink
  | other (code : Nat)
  deriving DecidableEq, Repr

/-- One tar entry as the `tar.Reader` yields it: its type flag, its
`header.Name` and `header.Linkname` (as segment lists), the mode from
`header.FileInfo().Mode()`, and — for regular files — the entry's data
bytes. -/
structure TarEntry where
  typ : EntryType
  name : Path
  linkname : Path := []
  mode : Nat := 0
  content : List Nat := []
  deriving DecidableEq, Repr

/-- How the decompressed byte stream behind a `tar.Reader` ends, following
`archive/tar`: `trailer` is a proper end-of-archive marker (two zero blocks),
`boundary` is a stream that simply stops at a 512-byte block boundary with no
trailer (`Next` reports `io.EOF` in both cases), `truncated` is a stream cut
mid-block or mid-entry (`Next`/`Read` report `io.ErrUnexpectedEOF`). -/
inductive TarEnding
  | trailer
  | boundary
  | truncated
  deriving DecidableEq, Repr

/-- A gzip-decompressed tar stream: the complete entries it yields, and how
it ends after them. -/
structure TarStream where
  entries : List TarEntry
  ending : TarEnding := .trailer
  deriving DecidableEq, Repr

/-- The error outcomes of `ExtractTarGz` (the non-nil `error` returns). -/
inductive ExtractErr
  | mkdirFailed (p : Path)
  | openFailed (p : Path)
  | symlinkFailed (p : Path)
  | unknownType (code : Nat) (name : Path)
  | linkFailed (target p : Path)
  | unexpectedEOF
  deriving DecidableEq, Repr

/-- The deferred hard-link table: `hardLinks` is a Go `map[string]string`,
modelled as an association list with replace-on-existing-key insertion
(insertion order is kept as the model's rendering of the map). -/
abbrev Links := List (Path × Path)

/-- `hardLinks[k] = v` (Go map assignment): replace the value at an existing
key, otherwise append. -/
def mapInsert (m : Links) (k v : Path) : Links :=
  match m with
  | [] => [(k, v)]
  | (k2, v2) :: rest =>
    if k2 = k then (k, v) :: rest else (k2, v2) :: mapInsert rest k v

/-- Association-list lookup for the hard-link table. -/
def mapLookup (m : Links) (k : Path) : Option Path :=
  match m with
  | [] => none
  | (k2, v) :: rest => if k2 = k then some v else mapLookup rest k

/-- One iteration of `ExtractTarGz`'s entry loop, acting on the filesystem
and the deferred hard-link table:
- `TypeDir`: `os.Mkdir(Join(dst, name), mode)`; an `os.ErrExist` failure
  (the path already exists, whatever it is) is ignored, any other failure
  (missing or non-directory parent) is fatal;
- `TypeReg`: `os.OpenFile(Join(dst, name), O_RDWR|O_CREATE|O_TRUNC, mode)`
  then a byte-for-byte copy; creation uses the header mode, truncating an
  existing regular file keeps the file's old mode; opening a directory
  fails;
- `TypeLink`: only records `hardLinks[Join(dst,name)] = Join(dst,linkname)`;
- `TypeSymlink`: `os.Symlink(linkname, Join(dst, name))`, which fails if the
  path already exists;
- anything else: the fatal "uknown type" error. -/
def extractEntry (dst : Path) (st : FS × Links) (e : TarEntry) :
    Except ExtractErr (FS × Links) :=
  let fs := st.1
  let links := st.2
  match e.typ with
  | .dir =>
    let p := cleanJoin dst e.name
    match fs.lookup p with
    | some _ => .ok (fs, links)
    | none =>
      if fs.parentIsDir p then .ok (fs.insert p (.dir e.mode), links)
      else .error (.mkdirFailed p)
  | .reg =>
    let p := cleanJoin dst e.name
    if fs.parentIsDir p then
      match fs.lookup p with
      | none => .ok (fs.insert p (.file e.mode e.content), links)
      | some (.file m _) => .ok (fs.insert p (.file m e.content), links)
      | some _ => .error (.openFailed p)
    else .error (.openFailed p)
  | .link =>
    .ok (fs, mapInsert links (cleanJoin dst e.name) (cleanJoin dst e.linkname))
  | .symlink =>
    let p := cleanJoin dst e.name
    match fs.lookup p with
    | some _ => .error (.symlinkFailed p)
    | none =>
      if fs.parentIsDir p then .ok (fs.insert p (.symlink e.linkname), links)
      else .error (.symlinkFailed p)
  | .other c => .error (.unknownType c e.name)

/-- The entry loop of `ExtractTarGz`: process entries in stream order,
stopping at the first error. -/
def extractEntries (dst : Path) (st : FS × Links) :
    List TarEntry → Except ExtractErr (FS × Links)
  | [] => .ok st
  | e :: rest =>
    match extractEntry dst st e with
    | .error err => .error err
    | .ok st2 => extractEntries dst st2 rest

/-- The final pass of `ExtractTarGz`: for each recorded pair, `os.Link(v, k)`
— fatal if the target does not exist (or is a directory) or if the link path
already exists; otherwise the link path now denotes the same underlying
content as the target. -/
def resolveLinks (fs : FS) : Links → Except ExtractErr FS
  | [] => .ok fs
  | (k, v) :: rest =>
    match fs.lookup v with
    | none => .error (.linkFailed v k)
    | some (.dir _) => .error (.linkFailed v k)
    | some n =>
      match fs.lookup k with
      | some _ => .error (.linkFailed v k)
      | none => resolveLinks (fs.insert k n) rest

/-- `ExtractTarGz(gzipStream, dst)` over a filesystem `fs0`: run the entry
loop; a stream ending in `io.EOF` (proper trailer or bare block boundary)
breaks out of the loop normally, a truncated stream surfaces
`io.ErrUnexpectedEOF`; then resolve the deferred hard links. -/
def ExtractTarGz (ts : TarStream) (dst : Path) (fs0 : FS) :
    Except ExtractErr FS :=
  match extractEntries dst (fs0, []) ts.entries with
  | .error e => .error e
  | .ok (fs, links) =>
    match ts.ending with
    | .truncated => .error .unexpectedEOF
    | _ => resolveLinks fs links

/-- Lexicographic comparison of character lists by code point (the order of
Go byte-wise string comparison, which UTF-8 preserves). -/
def charListLt : List Char → List Char → Bool
  | [], [] => false
  | [], _ :: _ => true
  | _ :: _, [] => false
  | c :: cs, d :: ds =>
    if c.toNat < d.toNat then true
    else if d.toNat < c.toNat then false
    else charListLt cs ds

/-- Go string comparison (`<`) on path segments. -/
def segLt (a b : String) : Bool :=
  charListLt a.data b.data

/-- Strict lexicographic order on paths, segment by segment, with a proper
prefix ordered before its extensions. This is exactly the visit order of
`filepath.WalkDir` (lexical depth-first: the root first, then each child in
name order with its whole subtree). -/
def pathLt : Path → Path → Bool
  | [], [] => false
  | [], _ :: _ => true
  | _ :: _, [] => false
  | a :: ps, b :: qs =>
    if segLt a b then true
    else if segLt b a then false
    else pathLt ps qs

/-- Whether `pre` is a (segment-wise) prefix of `p`. -/
def pathIsPrefix : Path → Path → Bool
  | [], _ => true
  | _ :: _, [] => false
  | a :: ps, b :: qs => if a = b then pathIsPrefix ps qs else false

/-- Insertion into a `pathLt`-sorted list. -/
def insertSorted (p : Path) : List Path → List Path
  | [] => [p]
  | q :: rest => if pathLt p q then p :: q :: rest else q :: insertSorted p rest

/-- Sort a list of paths into `filepath.WalkDir` visit order. -/
def sortPaths (ps : List Path) : List Path :=
  ps.foldr insertSorted []

/-- Drop repeated paths, keeping first occurrences (`seen` accumulates the
paths already kept). -/
def dedupPaths (seen : List Path) : List Path → List Path
  | [] => []
  | p :: rest =>
    if p ∈ seen then dedupPaths seen rest
    else p :: dedupPaths (p :: seen) rest

/-- The distinct paths present in the filesystem (first occurrence wins,
matching `FS.lookup`). -/
def FS.keys (fs : FS) : List Path :=
  dedupPaths [] (fs.map Prod.fst)

/-- `filepath.Rel(absSrcDir, path)`: the path relative to the walk root,
which is `"."` for the root itself. -/
def relName (src p : Path) : Path :=
  let r := p.drop src.length
  if r = [] then ["."] else r

/-- The tar header (plus data) `CreateTarGz` writes for one visited path:
`tar.FileInfoHeader(info, link)` with `h.Name` overwritten by the relative
path; regular-file content is streamed after the header, symbolic-link
targets are read with `os.Readlink` (never followed), other node kinds write
a header only. -/
def nodeEntry (src p : Path) (n : Node) : TarEntry :=
  match n with
  | .dir m => { typ := .dir, name := relName src p, mode := m }
  | .file m c => { typ := .reg, name := relName src p, mode := m, content := c }
  | .symlink t => { typ := .symlink, name := relName src p, linkname := t }

/-- The body of `CreateTarGz`'s `filepath.WalkDir` callback, folded over the
walk order: emit an entry per path; `infoFails` marks paths where an I/O
error occurs (modelled at the `d.Info()` step, before that path's header is
written), which makes the callback return a non-nil error and stops the
walk. Returns the entries actually written to the tar stream before any
stop, and whether the walk ended with an error. -/
def walkPaths (fs : FS) (src : Path) (infoFails : Path → Bool) :
    List Path → List TarEntry × Bool
  | [] => ([], false)
  | p :: rest =>
    if infoFails p then ([], true)
    else
      match fs.lookup p with
      | none => ([], true)
      | some n =>
        let out := walkPaths fs src infoFails rest
        (nodeEntry src p n :: out.1, out.2)

/-- The full walk of `CreateTarGz`: every existing path under (and
including) `srcDir`, in `filepath.WalkDir` order. -/
def CreateTarGzWalk (fs : FS) (src : Path) (infoFails : Path → Bool) :
    List TarEntry × Bool :=
  walkPaths fs src infoFails (sortPaths ((FS.keys fs).filter (pathIsPrefix src)))

/-- `CreateTarGz(srcDir, buf)`. The source calls `filepath.WalkDir` and
DISCARDS its return value, then returns `nil`: whatever error the walk
callback reported never reaches the caller, and the entries written before
the stop are already in `buf`. The model therefore returns `.ok` with the
partial entry list regardless of the walk's error flag. -/
def CreateTarGz (fs : FS) (src : Path) (infoFails : Path → Bool) :
    Except Unit (List TarEntry) :=
  .ok (CreateTarGzWalk fs src infoFails).1

/-! ### SHA-256 (`crypto/sha256` as used by `GetTarSha256String`) -/

/-- 2^32, the word modulus of SHA-256's 32-bit arithmetic. -/
def m32 : Nat := 4294967296

/-- 32-bit rotate right. -/
def rotr (n x : Nat) : Nat :=
  ((x >>> n) ||| (x <<< (32 - n))) % m32

/-- The SHA-256 round constants (decimal). -/
def shaK : List Nat :=
  [1116352408, 1899447441, 3049323471, 3921009573,
   961987163, 1508970993, 2453635748, 2870763221,
   3624381080, 310598401, 607225278, 1426881987,
   1925078388, 2162078206, 2614888103, 3248222580,
   3835390401, 4022224774, 264347078, 604807628,
   770255983, 1249150122, 1555081692, 1996064986,
   2554220882, 2821834349, 2952996808, 3210313671,
   3336571891, 3584528711, 113926993, 338241895,
   666307205, 773529912, 1294757372, 1396182291,
   1695183700, 1986661051, 2177026350, 2456956037,
   2730485921, 2820302411, 3259730800, 3345764771,
   3516065817, 3600352804, 4094571909, 275423344,
   430227734, 506948616, 659060556, 883997877,
   958139571, 1322822218, 1537002063, 1747873779,
   1955562222, 2024104815, 2227730452, 2361852424,
   2428436474, 2756734187, 3204031479, 3329325298]

/-- The SHA-256 initial hash state (decimal). -/
def shaInit : List Nat :=
  [1779033703, 3144134277, 1013904242, 2773480762,
   1359893119, 2600822924, 528734635, 1541459225]

/-- Group bytes into big-endian 32-bit words. -/
def bytesToWordsBE : List Nat → List Nat
  | b0 :: b1 :: b2 :: b3 :: rest =>
    (b0 * 16777216 + b1 * 65536 + b2 * 256 + b3) :: bytesToWordsBE rest
  | _ => []

/-- The lowercase sigma-0 function of the message schedule. -/
def shaS0 (x : Nat) : Nat :=
  (rotr 7 x) ^^^ (rotr 18 x) ^^^ (x >>> 3)

/-- The lowercase sigma-1 function of the message schedule. -/
def shaS1 (x : Nat) : Nat :=
  (rotr 17 x) ^^^ (rotr 19 x) ^^^ (x >>> 10)

/-- Extend the 16-word message schedule by `n` further words. -/
def extendW : Nat → List Nat → List Nat
  | 0, w => w
  | Nat.succ n, w =>
    let l := w.length
    let next := (w.getD (l - 16) 0 + shaS0 (w.getD (l - 15) 0) +
      w.getD (l - 7) 0 + shaS1 (w.getD (l - 2) 0)) % m32
    extendW n (w ++ [next])

/-- One SHA-256 compression round on the 8-word working state. -/
def shaRound (kw : Nat × Nat) (st : List Nat) : List Nat :=
  match st with
  | [a, b, c, d, e, f0, g, h] =>
    let es1 := (rotr 6 e) ^^^ (rotr 11 e) ^^^ (rotr 25 e)
    let ch := (e &&& f0) ^^^ ((e ^^^ 4294967295) &&& g)
    let t1 := (h + es1 + ch + kw.1 + kw.2) % m32
    let as0 := (rotr 2 a) ^^^ (rotr 13 a) ^^^ (rotr 22 a)
    let mj := (a &&& b) ^^^ (a &&& c) ^^^ (b &&& c)
    let t2 := (as0 + mj) % m32
    [(t1 + t2) % m32, a, b, c, (d + t1) % m32, e, f0, g]
  | st2 => st2

/-- Compress one 64-byte chunk into the hash state. -/
def shaChunk (hs : List Nat) (chunk : List Nat) : List Nat :=
  let w := extendW 48 (bytesToWordsBE chunk)
  let st := (shaK.zip w).foldl (fun s kw => shaRound kw s) hs
  (hs.zip st).map (fun p => (p.1 + p.2) % m32)

/-- Split a byte list into 64-byte chunks (`fuel` bounds the recursion). -/
def chunksAux : Nat → List Nat → List (List Nat)
  | 0, _ => []
  | _, [] => []
  | Nat.succ fuel, bs => bs.take 64 :: chunksAux fuel (bs.drop 64)

/-- A natural number as `n` big-endian bytes. -/
def natToBytesBE : Nat → Nat → List Nat
  | 0, _ => []
  | Nat.succ n, x => natToBytesBE n (x / 256) ++ [x % 256]

/-- SHA-256 padding: a `0x80` byte, zeros to 56 mod 64, and the bit length
as 8 big-endian bytes. -/
def padMessage (ms : List Nat) : List Nat :=
  let rem := (ms.length + 1) % 64
  let zeros := if rem ≤ 56 then 56 - rem else 120 - rem
  ms ++ [128] ++ List.replicate zeros 0 ++ natToBytesBE 8 (ms.length * 8)

/-- The SHA-256 digest (32 bytes) of a byte list. -/
def sha256 (ms : List Nat) : List Nat :=
  let padded := padMessage ms
  ((chunksAux padded.length padded).foldl shaChunk shaInit).flatMap (natToBytesBE 4)

/-- The lowercase hex alphabet used by `encoding/hex`: digits then the
letters a-f. -/
def hexAlphabet : List Char :=
  (List.range 16).map (fun i => if i < 10 then Char.ofNat (48 + i) else Char.ofNat (87 + i))

/-- One byte as two lowercase hex characters. -/
def hexByte (b : Nat) : List Char :=
  [hexAlphabet.getD (b / 16 % 16) '0', hexAlphabet.getD (b % 16) '0']

/-- `hex.EncodeToString`: lowercase hex encoding of a byte list. -/
def hexEncode (bs : List Nat) : String :=
  ⟨bs.flatMap hexByte⟩

/-- An archive file on disk, presented abstractly by its raw (compressed)
bytes and the byte stream its gzip decompression yields; `compress/gzip` is
an external collaborator assumed correct, so `gzip.NewReader` is modelled as
access to the `uncompressed` field. -/
structure GzipFile where
  compressed : List Nat
  uncompressed : List Nat
  deriving DecidableEq, Repr

/-- `GetTarSha256String(path)`: open the archive, wrap it in a gzip reader,
and `io.Copy` the DECOMPRESSED stream into a `sha256` hasher; return the
lowercase-hex encoding of the digest. The compressed bytes are never
hashed. -/
def GetTarSha256String (a : GzipFile) : String :=
  hexEncode (sha256 a.uncompressed)

/-! ### Container lifecycle controller (`cmd/acbrun/main.go` and
`IsContainerRunning`) -/

/-- Substring search on character lists (`strings.Contains`). -/
def listContainsSub (pat : List Char) : List Char → Bool
  | [] => pat.isEmpty
  | c :: rest => pat.isPrefixOf (c :: rest) || listContainsSub pat rest

/-- `strings.Contains(s, pat)`. -/
def containsSub (s pat : String) : Bool :=
  listContainsSub pat.data s.data

/-- The stderr marker by which `runc` signals a missing container. -/
def doesNotExistMarker : String := "\"container does not exist\""

/-- What running `runc state <name>` produced: either the command failed
with the given stderr text, or it succeeded and its stdout JSON parsed to
the given `status` field (`none` when `json.Unmarshal` fails). -/
inductive StateQueryResult
  | failed (stderr : String)
  | output (status : Option String)
  deriving DecidableEq, Repr

/-- The error returns of `IsContainerRunning`. -/
inductive StateErr
  | runcFailed (stderr : String)
  | unmarshal
  deriving DecidableEq, Repr

/-- `IsContainerRunning(name)`: run `runc state name`; a failure whose
stderr contains the does-not-exist marker means "not running, no error"; any
other failure is an error; on success, parse the state JSON and report
running exactly when its `status` is `"running"` (any other status is
"not running, no error"). -/
def IsContainerRunning (q : StateQueryResult) : Except StateErr Bool :=
  match q with
  | .failed stderr =>
    if containsSub stderr doesNotExistMarker then .ok false
    else .error (.runcFailed stderr)
  | .output none => .error .unmarshal
  | .output (some status) =>
    if status ≠ "running" then .ok false else .ok true

/-- One parsed element of `manifest.json` (`Manifest` in `main.go`). -/
structure Manifest where
  config : String := ""
  repoTags : List String := []
  layers : List String := []
  deriving DecidableEq, Repr

/-- `getLayers(manifestPath)`: read and unmarshal the manifest file
(`parsed = none` models an open/read/unmarshal failure, returned to the
caller); then `panic("expected 1 result")` unless the parsed list has
exactly one element; return that element's layer list. Both error forms
make `main` abort. -/
def getLayers (parsed : Option (List Manifest)) : Except String (List String) :=
  match parsed with
  | none => .error "manifest read failed"
  | some [m] => .ok m.layers
  | some _ => .error "expected 1 result"

/-- The command-line options of `main.go` (Go zero values as defaults;
`output` and `name` are empty strings when not supplied). -/
structure Opts where
  verbose : Bool := false
  keep : Bool := false
  hostNetwork : Bool := false
  bindLocalDir : Bool := false
  reentrant : Bool := false
  interactive : Bool := false
  output : String := ""
  name : String := ""
  deriving DecidableEq, Repr

/-- The externally visible steps `main` takes, in order. `runcRun` records
whether `--detach` was passed and whether stdout/stderr and stdin were
connected to the parent's; `runcExec` records whether `--tty` was passed
and whether stdin was connected. -/
inductive Action
  | mkWorkingDir
  | validateDigest
  | extractImage
  | applyLayer (layer : String)
  | writeConfig
  | queryState
  | runcRun (detach stdoutConnected stdinConnected : Bool)
  | runcExec (tty stdinConnected : Bool)
  | buildOutput
  deriving DecidableEq, Repr

/-- How the `main` process ends: `os.Exit`/normal return with a code, or a
Go `panic` (which aborts with a diagnostic). -/
inductive Outcome
  | exited (code : Nat)
  | panicked (msg : String)
  deriving DecidableEq, Repr

/-- The environment `main` runs against: everything the external world
answers during one invocation. `execOutcome = some n` means `runc exec`
started and completed with exit code `n` (so `cmd.Run`'s error, if any, is
an `exec.ExitError`); `none` means it failed without an exit code. -/
structure Env where
  reentrantDirExists : Bool := false
  actualDigest : String := ""
  manifestParsed : Option (List Manifest) := some [{}]
  stateQuery : StateQueryResult := .output (some "running")
  runOk : Bool := true
  execOutcome : Option Nat := some 0
  outputOk : Bool := true
  randName : String := "aaaaaaaaaaaa"
  deriving Repr

/-- The digest escape hatch recognized by `main`. -/
def skipSentinel : String := "skip-sha256-validation"

/-- Container-name resolution (`main.go` lines 88-98): an explicit `--name`
wins; otherwise reentrant mode refuses to run (exit 1) and non-reentrant
mode generates a random 12-character name. -/
def resolveContainerName (o : Opts) (env : Env) : Option String :=
  if o.name ≠ "" then some o.name
  else if o.reentrant then none
  else some env.randName

/-- The image-load phase (`main.go` lines 140-185), run only when the
working directory was freshly created: validate the archive digest
(mismatch exits 1 unless the skip sentinel was supplied, which only warns),
extract the image archive, parse the manifest, reject an empty layer list,
and extract each layer in manifest order into `rootfs`. Returns the actions
taken and an early outcome if the phase aborted. -/
def loadPhase (expectedSha : String) (env : Env) (needsCreation : Bool) :
    List Action × Option Outcome :=
  if needsCreation then
    if env.actualDigest ≠ expectedSha ∧ expectedSha ≠ skipSentinel then
      ([Action.validateDigest], some (.exited 1))
    else
      match getLayers env.manifestParsed with
      | .error msg => ([Action.validateDigest, Action.extractImage], some (.panicked msg))
      | .ok layers =>
        if layers.isEmpty then
          ([Action.validateDigest, Action.extractImage], some (.panicked "no layer data"))
        else
          ([Action.validateDigest, Action.extractImage] ++ layers.map Action.applyLayer,
            none)
  else ([], none)

/-- The container-start phase (`main.go` lines 246-286). In reentrant mode
the runtime is first queried (`IsContainerRunning`); a query error is fatal
(`panic`), a running container skips the start entirely, otherwise — and
always in non-reentrant mode — `runc run` is invoked, with `--detach` in
reentrant mode, stdout/stderr connected only in non-reentrant mode, and
stdin connected whenever `--interactive` was given. A failing run is fatal. -/
def runPhase (o : Opts) (env : Env) : List Action × Option Outcome :=
  if o.reentrant then
    match IsContainerRunning env.stateQuery with
    | .error _ => ([Action.queryState], some (.panicked "state query failed"))
    | .ok isRunning =>
      if isRunning then ([Action.queryState], none)
      else
        let acts := [Action.queryState,
          Action.runcRun o.reentrant (!o.reentrant) o.interactive]
        if env.runOk then (acts, none) else (acts, some (.panicked "runc run failed"))
  else
    let acts := [Action.runcRun o.reentrant (!o.reentrant) o.interactive]
    if env.runOk then (acts, none) else (acts, some (.panicked "runc run failed"))

/-- The exec phase (`main.go` lines 288-308), reentrant mode only: always
issue `runc exec` of the caller's command (`--tty` and stdin exactly when
`--interactive`), wait for it, and on a nonzero exit code call
`os.Exit` with that same code; a failure without an exit code is a panic. -/
def execPhase (o : Opts) (env : Env) : List Action × Option Outcome :=
  if o.reentrant then
    let act := Action.runcExec o.interactive o.interactive
    match env.execOutcome with
    | none => ([act], some (.panicked "runc exec failed"))
    | some n => if n = 0 then ([act], none) else ([act], some (.exited n))
  else ([], none)

/-- The output phase (`main.go` lines 310-412): nothing unless `--output`
was supplied; otherwise build the output image (any failure in it is a
panic) and finish. -/
def outputPhase (o : Opts) (env : Env) : List Action × Outcome :=
  if o.output = "" then ([], .exited 0)
  else if env.outputOk then ([Action.buildOutput], .exited 0)
  else ([Action.buildOutput], .panicked "output failed")

/-- `main` after successful flag/argument parsing: resolve the container
name, set up the working directory (`needsCreation` is decided by the
reentrant directory's existence, and is always true in non-reentrant mode),
run the load phase, write the runtime config, then the start, exec and
output phases, propagating the first early outcome. Returns the action
trace and the process outcome. -/
def runAcbrun (o : Opts) (expectedSha : String) (env : Env) :
    List Action × Outcome :=
  match resolveContainerName o env with
  | none => ([], .exited 1)
  | some _ =>
    let needsCreation := if o.reentrant then !env.reentrantDirExists else true
    let load := loadPhase expectedSha env needsCreation
    match load.2 with
    | some out => (Action.mkWorkingDir :: load.1, out)
    | none =>
      let acts1 := Action.mkWorkingDir :: load.1 ++ [Action.writeConfig]
      let run := runPhase o env
      match run.2 with
      | some out => (acts1 ++ run.1, out)
      | none =>
        let ex := execPhase o env
        match ex.2 with
        | some out => (acts1 ++ run.1 ++ ex.1, out)
        | none =>
          let fin := outputPhase o env
          (acts1 ++ run.1 ++ ex.1 ++ fin.1, fin.2)

/-- The (strict) visit-order relation as a `Prop` relation. -/
def pathRel (a b : Path) : Prop :=
  pathLt a b = true

/-- The entry kinds admitted by the round-trip claim: regular files,
directories and symbolic links, with clean non-empty names. -/
def entryOk (e : TarEntry) : Bool :=
  (match e.typ with
   | .dir => true
   | .reg => true
   | .symlink => true
   | _ => false) && pathClean e.name && !e.name.isEmpty

/-- A filesystem is tree-shaped under `dst`: `dst` is a directory, every
existing path is `dst` or a clean non-empty extension of it, and every
existing non-root path has an existing directory as parent. -/
structure TreeFS (dst : Path) (fs : FS) : Prop where
  root : ∃ m, fs.lookup dst = some (.dir m)
  shape : ∀ q n, fs.lookup q = some n →
    q = dst ∨ ∃ r, q = dst ++ r ∧ r ≠ [] ∧ pathClean r = true
  parent : ∀ q n, fs.lookup q = some n → q ≠ dst →
    ∃ m, fs.lookup q.dropLast = some (.dir m)

/-- The tar entry the walk writes for a path `q`, reading `q`'s node from
the filesystem (the default is irrelevant: it is only used off the walk's
domain). -/
def entryOfWalk (fs : FS) (src q : Path) : TarEntry :=
  nodeEntry src q ((fs.lookup q).getD (.dir 0))

/-- After the walk entries of the processed set `S` have been re-extracted
into `dst'`, the rebuilt filesystem looks up as: the new root `dst'` is a
directory; a path `dst' ++ r` with `dst ++ r` processed carries exactly the
node of `dst ++ r` in the source filesystem; nothing else exists. -/
def mirrorLookup (fs : FS) (dst dst' : Path) (dm' : Nat) (S : List Path)
    (q : Path) : Option Node :=
  if q = dst' then some (.dir dm')
  else if pathIsPrefix dst' q = true then
    (if dst ++ q.drop dst'.length ∈ S then fs.lookup (dst ++ q.drop dst'.length)
     else none)
  else none

/-- The list of paths `CreateTarGz`'s walk visits. -/
def walkList (fs : FS) (src : Path) : List Path :=
  sortPaths ((FS.keys fs).filter (pathIsPrefix src))

/-- The concrete archive of the round-trip witness: a directory, a regular
file inside it, and a symlink. -/
def c5wStream : TarStream :=
  { entries := [{ typ := .dir, name := ["d"], mode := 493 },
      { typ := .reg, name := ["d", "f"], mode := 420, content := [7] },
      { typ := .symlink, name := ["s"], linkname := ["d", "f"] }],
    ending := .trailer }

/-- The filesystem the witness archive extracts to. -/
def c5wFS : FS :=
  [(["w", "s"], .symlink ["d", "f"]), (["w", "d", "f"], .file 420 [7]),
    (["w", "d"], .dir 493), (["w"], .dir 493)]

/-! ### Basic lemmas -/

theorem FS.lookup_insert (fs : FS) (p : Path) (n : Node) (q : Path) :
    (fs.insert p n).lookup q = if p = q then some n else fs.lookup q := by
  simp [FS.insert, FS.lookup]

theorem foldl_cleanSeg_clean (l : Path) (acc : Path) (h : pathClean l) :
    l.foldl cleanSeg acc = acc ++ l := by
  induction l generalizing acc with
  | nil => simp
  | cons s rest ih =>
    simp only [pathClean, List.all_cons, Bool.and_eq_true] at h
    have hs := h.1
    simp only [cleanSegOk, Bool.not_eq_true', decide_eq_false_iff_not,
      Bool.or_eq_false_iff, decide_eq_false_iff_not] at hs
    simp only [List.foldl_cons, cleanSeg, if_neg hs.1.1, if_neg hs.1.2, if_neg hs.2]
    rw [ih _ h.2]
    simp

theorem cleanJoin_of_clean (dst name : Path) (h1 : pathClean dst)
    (h2 : pathClean name) : cleanJoin dst name = dst ++ name := by
  have h : pathClean (dst ++ name) := by
    simp only [pathClean, List.all_append, Bool.and_eq_true] at h1 h2 ⊢
    exact ⟨h1, h2⟩
  have h3 := foldl_cleanSeg_clean (dst ++ name) [] h
  simp only [List.nil_append] at h3
  exact h3

theorem cleanJoin_dot (dst : Path) (h : pathClean dst) :
    cleanJoin dst ["."] = dst := by
  simp only [cleanJoin, List.foldl_append]
  rw [foldl_cleanSeg_clean dst [] h]
  simp [cleanSeg]

/-! ### Claim theorems -/

/-- Claim C9 counterexample: a gzip stream whose tar content is truncated
mid-block (`io.ErrUnexpectedEOF`) makes `ExtractTarGz` report an error, not
terminate normally, so "for every input stream, an unexpected end of the tar
stream terminates normally" is false of the code. -/
theorem c9_counterexample :
    ExtractTarGz { entries := [], ending := .truncated } ["d"]
      [(["d"], Node.dir 493)] = .error .unexpectedEOF := by
  rfl

/-- Claim C9, amended: only a stream that ends at a 512-byte block boundary
without the end-of-archive trailer (which `archive/tar` reports as a plain
`io.EOF`) is treated as normal termination — indistinguishable from a
properly terminated stream; a stream truncated mid-block or mid-entry
(`io.ErrUnexpectedEOF`) always makes `ExtractTarGz` return an error, never
success. -/
theorem c9_amended (entries : List TarEntry) (dst : Path) (fs0 : FS) :
    ExtractTarGz { entries := entries, ending := .boundary } dst fs0 =
      ExtractTarGz { entries := entries, ending := .trailer } dst fs0 ∧
    ∀ fs : FS,
      ExtractTarGz { entries := entries, ending := .truncated } dst fs0 ≠ .ok fs := by
  simp only [ExtractTarGz]
  rcases hx : extractEntries dst (fs0, []) entries with e | st
  · exact ⟨trivial, fun fs h => by simp at h⟩
  · obtain ⟨fs1, links⟩ := st
    exact ⟨trivial, fun fs h => by simp at h⟩

/-- Claim C9 witness: the amended statement applied at a concrete stream. -/
theorem c9_witness :
    ExtractTarGz { entries := [], ending := .boundary } ["d"] [] =
      ExtractTarGz { entries := [], ending := .trailer } ["d"] [] ∧
    ExtractTarGz { entries := [], ending := .truncated } ["d"] [] ≠ .ok [] :=
  ⟨(c9_amended [] ["d"] []).1, (c9_amended [] ["d"] []).2 []⟩

/-- Claim C10: `ExtractTarGz` joins the destination with `header.Name`
without any containment check, so an entry named `../evil` extracted into
`/tmp/sandbox` succeeds and writes `/tmp/evil`, a path of which the
destination is not a prefix. -/
theorem c10_path_escape :
    ExtractTarGz
        { entries := [{ typ := .reg, name := ["..", "evil"], mode := 420,
                        content := [1] }],
          ending := .trailer }
        ["tmp", "sandbox"]
        [(["tmp", "sandbox"], Node.dir 493), (["tmp"], Node.dir 493)] =
      .ok [(["tmp", "evil"], Node.file 420 [1]),
        (["tmp", "sandbox"], Node.dir 493), (["tmp"], Node.dir 493)] ∧
    FS.lookup [(["tmp", "evil"], Node.file 420 [1]),
        (["tmp", "sandbox"], Node.dir 493), (["tmp"], Node.dir 493)]
      ["tmp", "evil"] = some (Node.file 420 [1]) ∧
    pathIsPrefix ["tmp", "sandbox"] ["tmp", "evil"] = false := by
  refine ⟨by rfl, by rfl, by rfl⟩

/-- Claim C2 (code bug evidence): `CreateTarGz` discards the value returned
by `filepath.WalkDir`, so when an I/O error stops the walk after a partial
write (here: the walk fails at `s/b` after `s/.` and `s/a` were written),
the walk's error flag is set and the output is partial, yet `CreateTarGz`
still returns success. -/
theorem c2_code_bug :
    CreateTarGzWalk
        [(["s"], Node.dir 493), (["s", "a"], Node.file 420 [1]),
          (["s", "b"], Node.file 420 [2])]
        ["s"] (fun p => decide (p = ["s", "b"])) =
      ([{ typ := .dir, name := ["."], mode := 493 },
        { typ := .reg, name := ["a"], mode := 420, content := [1] }], true) ∧
    CreateTarGz
        [(["s"], Node.dir 493), (["s", "a"], Node.file 420 [1]),
          (["s", "b"], Node.file 420 [2])]
        ["s"] (fun p => decide (p = ["s", "b"])) =
      .ok [{ typ := .dir, name := ["."], mode := 493 },
        { typ := .reg, name := ["a"], mode := 420, content := [1] }] ∧
    CreateTarGzWalk
        [(["s"], Node.dir 493), (["s", "a"], Node.file 420 [1]),
          (["s", "b"], Node.file 420 [2])]
        ["s"] (fun _ => false) =
      ([{ typ := .dir, name := ["."], mode := 493 },
        { typ := .reg, name := ["a"], mode := 420, content := [1] },
        { typ := .reg, name := ["b"], mode := 420, content := [2] }], false) ∧
    ([{ typ := .dir, name := ["."], mode := 493 },
      { typ := .reg, name := ["a"], mode := 420, content := [1] }] :
        List TarEntry) ≠
      [{ typ := .dir, name := ["."], mode := 493 },
        { typ := .reg, name := ["a"], mode := 420, content := [1] },
        { typ := .reg, name := ["b"], mode := 420, content := [2] }] := by
  refine ⟨by rfl, by rfl, by rfl, by decide⟩

theorem hex_getD_mem (i : Nat) : hexAlphabet.getD i '0' ∈ hexAlphabet := by
  by_cases h : i < 16
  · interval_cases i <;> decide
  · rw [List.getD_eq_default]
    · decide
    · simpa [hexAlphabet] using Nat.le_of_not_lt h

theorem hexEncode_chars (bs : List Nat) : ∀ c ∈ (hexEncode bs).data, c ∈ hexAlphabet := by
  intro c hc
  change c ∈ bs.flatMap hexByte at hc
  rw [List.mem_flatMap] at hc
  obtain ⟨b, _, hb⟩ := hc
  simp only [hexByte, List.mem_cons, List.not_mem_nil, or_false] at hb
  rcases hb with rfl | rfl <;> exact hex_getD_mem _

/-- Claim C6: `GetTarSha256String` hashes the decompressed tar content: two
archives with identical decompressed content (whatever their compressed
bytes, e.g. different gzip levels) get the same digest; the digest is the
lowercase-hex SHA-256 of the decompressed bytes (every output character is a
lowercase hex digit), and it differs from the digest of the compressed
bytes. -/
theorem c6_digest_decompressed :
    (∀ a b : GzipFile, a.uncompressed = b.uncompressed →
      GetTarSha256String a = GetTarSha256String b) ∧
    (∀ a : GzipFile, GetTarSha256String a = hexEncode (sha256 a.uncompressed)) ∧
    (∀ a : GzipFile, ∀ c ∈ (GetTarSha256String a).data, c ∈ hexAlphabet) ∧
    GetTarSha256String ⟨[0], []⟩ ≠ hexEncode (sha256 [0]) := by
  refine ⟨fun a b h => ?_, fun a => rfl, fun a => hexEncode_chars _, by decide⟩
  simp only [GetTarSha256String, h]

/-- Claim C6 witness: two archives with different compressed bytes but the
same decompressed content have equal digests. -/
theorem c6_witness :
    (⟨[1, 2], [7]⟩ : GzipFile).uncompressed = (⟨[9], [7]⟩ : GzipFile).uncompressed ∧
    GetTarSha256String ⟨[1, 2], [7]⟩ = GetTarSha256String ⟨[9], [7]⟩ :=
  ⟨rfl, c6_digest_decompressed.1 _ _ rfl⟩

/-! ### Controller lemmas -/

theorem loadPhase_skip (sha : String) (env : Env) :
    loadPhase sha env false = ([], none) := rfl

theorem mem_loadPhase {a : Action} {sha : String} {env : Env} {b : Bool}
    (h : a ∈ (loadPhase sha env b).1) :
    a = .validateDigest ∨ a = .extractImage ∨ ∃ l, a = .applyLayer l := by
  unfold loadPhase at h
  split at h
  · split at h
    · simp at h
      exact .inl h
    · split at h
      · simp at h
        rcases h with h | h
        · exact .inl h
        · exact .inr (.inl h)
      · split at h
        · simp at h
          rcases h with h | h
          · exact .inl h
          · exact .inr (.inl h)
        · simp only [List.mem_append, List.mem_cons, List.not_mem_nil, or_false,
            List.mem_map] at h
          rcases h with (h | h) | ⟨l, _, h⟩
          · exact .inl h
          · exact .inr (.inl h)
          · exact .inr (.inr ⟨l, h.symm⟩)
  · simp at h

theorem mem_runPhase {a : Action} {o : Opts} {env : Env}
    (h : a ∈ (runPhase o env).1) :
    a = .queryState ∨ a = .runcRun o.reentrant (!o.reentrant) o.interactive := by
  unfold runPhase at h
  split at h
  · split at h
    · simp at h
      exact .inl h
    · split at h
      · simp at h
        exact .inl h
      · split at h <;>
        · simp at h
          rcases h with h | h
          · exact .inl h
          · exact .inr h
  · split at h <;>
    · simp at h
      exact .inr h

theorem mem_execPhase {a : Action} {o : Opts} {env : Env}
    (h : a ∈ (execPhase o env).1) :
    a = .runcExec o.interactive o.interactive := by
  unfold execPhase at h
  split at h
  · split at h
    · simp at h
      exact h
    · split at h <;>
      · simp at h
        exact h
  · simp at h

theorem mem_outputPhase {a : Action} {o : Opts} {env : Env}
    (h : a ∈ (outputPhase o env).1) : a = .buildOutput := by
  unfold outputPhase at h
  split at h
  · simp at h
  · split at h <;>
    · simp at h
      exact h

theorem mem_runAcbrun {a : Action} {o : Opts} {sha : String} {env : Env}
    (h : a ∈ (runAcbrun o sha env).1) :
    a = .mkWorkingDir ∨
    a ∈ (loadPhase sha env (if o.reentrant = true then !env.reentrantDirExists
      else true)).1 ∨
    a = .writeConfig ∨ a ∈ (runPhase o env).1 ∨ a ∈ (execPhase o env).1 ∨
    a ∈ (outputPhase o env).1 := by
  unfold runAcbrun at h
  split at h
  · simp at h
  · simp only [if_true] at h ⊢
    split at h
    · simp only [List.mem_cons] at h
      rcases h with h | h
      · exact .inl h
      · exact .inr (.inl (by simpa using h))
    · split at h
      · simp only [List.mem_append, List.mem_cons, List.not_mem_nil, or_false] at h
        rcases h with ((h | h) | h) | h
        · exact .inl h
        · exact .inr (.inl (by simpa using h))
        · exact .inr (.inr (.inl h))
        · exact .inr (.inr (.inr (.inl h)))
      · split at h
        · simp only [List.mem_append, List.mem_cons, List.not_mem_nil, or_false] at h
          rcases h with (((h | h) | h) | h) | h
          · exact .inl h
          · exact .inr (.inl (by simpa using h))
          · exact .inr (.inr (.inl h))
          · exact .inr (.inr (.inr (.inl h)))
          · exact .inr (.inr (.inr (.inr (.inl h))))
        · simp only [List.mem_append, List.mem_cons, List.not_mem_nil, or_false] at h
          rcases h with ((((h | h) | h) | h) | h) | h
          · exact .inl h
          · exact .inr (.inl (by simpa using h))
          · exact .inr (.inr (.inl h))
          · exact .inr (.inr (.inr (.inl h)))
          · exact .inr (.inr (.inr (.inr (.inl h))))
          · exact .inr (.inr (.inr (.inr (.inr h))))

theorem runPhase_not_running {o : Opts} {env : Env} (hre : o.reentrant = true)
    (hq : IsContainerRunning env.stateQuery = .ok false) :
    (runPhase o env).1 =
      [Action.queryState, Action.runcRun true false o.interactive] := by
  unfold runPhase
  rw [hre, hq]
  cases hrk : env.runOk <;> simp [hrk]

theorem runPhase_running {o : Opts} {env : Env} (hre : o.reentrant = true)
    (hq : IsContainerRunning env.stateQuery = .ok true) :
    runPhase o env = ([Action.queryState], none) := by
  unfold runPhase
  rw [hre, hq]
  simp

theorem runPhase_query_failed {o : Opts} {env : Env} {e : StateErr}
    (hre : o.reentrant = true)
    (hq : IsContainerRunning env.stateQuery = .error e) :
    runPhase o env = ([Action.queryState], some (.panicked "state query failed")) := by
  unfold runPhase
  rw [hre, hq]
  simp

theorem runPhase_sub_trace {o : Opts} {sha : String} {env : Env}
    (hname : o.name ≠ "") (hre : o.reentrant = true)
    (hdir : env.reentrantDirExists = true) :
    ∀ x ∈ (runPhase o env).1, x ∈ (runAcbrun o sha env).1 := by
  intro x hx
  unfold runAcbrun resolveContainerName
  rw [if_pos hname]
  simp only [hre, hdir, Bool.not_true, if_true, loadPhase_skip]
  rcases h2 : (runPhase o env).2 with _ | out
  · rcases h3 : (execPhase o env).2 with _ | out2 <;> simp [hx]
  · simp [hx]

theorem runAcbrun_skipload_outcome {o : Opts} {sha : String} {env : Env}
    (hname : o.name ≠ "") (hre : o.reentrant = true)
    (hdir : env.reentrantDirExists = true) :
    (runAcbrun o sha env).1 =
      Action.mkWorkingDir :: Action.writeConfig :: ((runPhase o env).1 ++
        (match (runPhase o env).2 with
         | some _ => []
         | none => (execPhase o env).1 ++
            (match (execPhase o env).2 with
             | some _ => []
             | none => (outputPhase o env).1))) ∧
    (runAcbrun o sha env).2 =
      (match (runPhase o env).2 with
       | some out => out
       | none =>
         match (execPhase o env).2 with
         | some out => out
         | none => (outputPhase o env).2) := by
  unfold runAcbrun resolveContainerName
  rw [if_pos hname]
  simp only [hre, hdir, Bool.not_true, if_true, loadPhase_skip]
  rcases h2 : (runPhase o env).2 with _ | out
  · rcases h3 : (execPhase o env).2 with _ | out2 <;> simp
  · simp

/-- Claim C1 counterexample: in reentrant mode with an existing working
directory, when the state query succeeds and reports status `"stopped"`
(neither `"running"` nor absence), the controller does NOT abort: it treats
the container as not running, attempts a detached start (`runc run
--detach` appears in the trace), and — the start and exec succeeding — runs
to completion with exit 0. -/
theorem c1_counterexample :
    Action.runcRun true false false ∈
      (runAcbrun { reentrant := true, name := "c" } "sha"
        { reentrantDirExists := true,
          stateQuery := .output (some "stopped") }).1 ∧
    (runAcbrun { reentrant := true, name := "c" } "sha"
      { reentrantDirExists := true,
        stateQuery := .output (some "stopped") }).2 = .exited 0 := by
  refine ⟨by decide, by decide⟩

/-- Claim C1, amended: if the state query succeeds with a status other than
`"running"`, `IsContainerRunning` reports "not running" without error and
the controller proceeds to attempt a detached start (no abort at the query
step); only a failed query whose stderr lacks the "container does not
exist" marker is fatal — that one aborts with no start and no exec. -/
theorem c1_amended :
    (∀ (o : Opts) (sha : String) (env : Env) (status : String),
      o.reentrant = true → o.name ≠ "" → env.reentrantDirExists = true →
      env.stateQuery = .output (some status) → status ≠ "running" →
      IsContainerRunning env.stateQuery = .ok false ∧
      Action.runcRun true false o.interactive ∈ (runAcbrun o sha env).1) ∧
    (∀ (o : Opts) (sha : String) (env : Env) (stderr : String),
      o.reentrant = true → o.name ≠ "" → env.reentrantDirExists = true →
      env.stateQuery = .failed stderr →
      containsSub stderr doesNotExistMarker = false →
      (runAcbrun o sha env).2 = .panicked "state query failed" ∧
      (∀ d s i, Action.runcRun d s i ∉ (runAcbrun o sha env).1) ∧
      (∀ t i, Action.runcExec t i ∉ (runAcbrun o sha env).1)) := by
  constructor
  · intro o sha env status hre hname hdir hq hstat
    have hic : IsContainerRunning env.stateQuery = .ok false := by
      rw [hq]
      simp [IsContainerRunning, hstat]
    refine ⟨hic, ?_⟩
    have hsub := @runPhase_sub_trace o sha env hname hre hdir
    apply hsub
    rw [runPhase_not_running hre hic]
    simp
  · intro o sha env stderr hre hname hdir hq hmarker
    have hic : IsContainerRunning env.stateQuery = .error (.runcFailed stderr) := by
      rw [hq]
      simp [IsContainerRunning, hmarker]
    have hrp := runPhase_query_failed hre hic
    obtain ⟨htr, hout⟩ :=
      @runAcbrun_skipload_outcome o sha env hname hre hdir
    rw [hrp] at htr hout
    simp only at htr hout
    refine ⟨hout, ?_, ?_⟩
    · intro d s i hmem
      rw [htr] at hmem
      simp at hmem
    · intro t i hmem
      rw [htr] at hmem
      simp at hmem

/-- Claim C1 witness: the amended statement at concrete inputs (status
`"created"`, and a query failure with unrelated stderr). -/
theorem c1_witness :
    (({ reentrant := true, name := "c" } : Opts).reentrant = true ∧
      ("created" : String) ≠ "running" ∧
      IsContainerRunning (.output (some "created")) = .ok false ∧
      Action.runcRun true false false ∈
        (runAcbrun { reentrant := true, name := "c" } "sha"
          { reentrantDirExists := true,
            stateQuery := .output (some "created") }).1) ∧
    (containsSub "permission denied" doesNotExistMarker = false ∧
      (runAcbrun { reentrant := true, name := "c" } "sha"
        { reentrantDirExists := true,
          stateQuery := .failed "permission denied" }).2 =
        .panicked "state query failed") := by
  have h1 := c1_amended.1 { reentrant := true, name := "c" } "sha"
    { reentrantDirExists := true, stateQuery := .output (some "created") }
    "created" rfl (by decide) rfl rfl (by decide)
  have h2 := c1_amended.2 { reentrant := true, name := "c" } "sha"
    { reentrantDirExists := true, stateQuery := .failed "permission denied" }
    "permission denied" rfl (by decide) rfl rfl (by decide)
  exact ⟨⟨rfl, by decide, h1.1, h1.2⟩, ⟨by decide, h2.1⟩⟩

/-- Claim C3 counterexample: with both `--reentrant` and `--interactive`
set and the container absent, the detached start (`runc run --detach`) IS
given the caller's stdin (`cmd.Stdin = os.Stdin` is guarded only by
`opts.Interactive`, not by the detach mode), contradicting "for a detached
start, stdin is never connected". -/
theorem c3_counterexample :
    Action.runcRun true false true ∈
      (runAcbrun { reentrant := true, interactive := true, name := "c" } "sha"
        { reentrantDirExists := true,
          stateQuery := .failed "ERRO \"container does not exist\"" }).1 := by
  decide

/-- Claim C3, amended: stdin is connected to the child runtime process
exactly when interactive mode is requested — for the run step whether
blocking or detached (detach and stdout/stderr wiring are decided by the
reentrant flag alone), and likewise for the exec step. -/
theorem c3_amended (o : Opts) (sha : String) (env : Env) :
    (∀ d s i, Action.runcRun d s i ∈ (runAcbrun o sha env).1 →
      d = o.reentrant ∧ s = !o.reentrant ∧ i = o.interactive) ∧
    (∀ t i, Action.runcExec t i ∈ (runAcbrun o sha env).1 →
      t = o.interactive ∧ i = o.interactive) := by
  constructor
  · intro d s i hmem
    rcases mem_runAcbrun hmem with h | h | h | h | h | h
    · exact absurd h (by simp)
    · rcases mem_loadPhase h with h | h | ⟨l, h⟩ <;> simp at h
    · exact absurd h (by simp)
    · rcases mem_runPhase h with h | h
      · simp at h
      · refine ⟨?_, ?_, ?_⟩ <;> cases h <;> rfl
    · have := mem_execPhase h
      simp at this
    · have := mem_outputPhase h
      simp at this
  · intro t i hmem
    rcases mem_runAcbrun hmem with h | h | h | h | h | h
    · exact absurd h (by simp)
    · rcases mem_loadPhase h with h | h | ⟨l, h⟩ <;> simp at h
    · exact absurd h (by simp)
    · rcases mem_runPhase h with h | h <;> simp at h
    · have := mem_execPhase h
      exact ⟨by cases this; rfl, by cases this; rfl⟩
    · have := mem_outputPhase h
      simp at this

/-- Claim C3 witness: the amended statement applied to a concrete trace
containing both a run and an exec action. -/
theorem c3_witness :
    Action.runcRun true false true ∈
      (runAcbrun { reentrant := true, interactive := true, name := "c" } "sha"
        { reentrantDirExists := true,
          stateQuery := .output (some "created") }).1 ∧
    (true = ({ reentrant := true, interactive := true, name := "c" } : Opts).reentrant ∧
      false = !({ reentrant := true, interactive := true, name := "c" } : Opts).reentrant ∧
      true = ({ reentrant := true, interactive := true, name := "c" } : Opts).interactive) := by
  refine ⟨by decide, ?_⟩
  exact (c3_amended { reentrant := true, interactive := true, name := "c" } "sha"
    { reentrantDirExists := true, stateQuery := .output (some "created") }).1
    true false true (by decide)

/-- Claim C7: when the parsed manifest list does not have exactly one
element, or its single element has an empty layer list, `main` aborts (by
panic) after manifest parsing and before any layer application and before
any runtime invocation: no `applyLayer`, no `runc run`, no `runc exec`
appears in the trace. -/
theorem c7_manifest_cardinality (o : Opts) (sha : String) (env : Env)
    (ms : List Manifest)
    (hname : ¬(o.name = "" ∧ o.reentrant = true))
    (hcreate : o.reentrant = true → env.reentrantDirExists = false)
    (hdig : env.actualDigest = sha)
    (hman : env.manifestParsed = some ms)
    (hbad : (∀ m, ms ≠ [m]) ∨ ∃ m, ms = [m] ∧ m.layers = []) :
    ((runAcbrun o sha env).2 = .panicked "expected 1 result" ∨
      (runAcbrun o sha env).2 = .panicked "no layer data") ∧
    (∀ l, Action.applyLayer l ∉ (runAcbrun o sha env).1) ∧
    (∀ d s i, Action.runcRun d s i ∉ (runAcbrun o sha env).1) ∧
    (∀ t i, Action.runcExec t i ∉ (runAcbrun o sha env).1) := by
  have hres : ∃ nm, resolveContainerName o env = some nm := by
    unfold resolveContainerName
    by_cases h : o.name = ""
    · have hre : o.reentrant = false := by
        cases hrc : o.reentrant
        · rfl
        · exact absurd ⟨h, hrc⟩ hname
      simp [h, hre]
    · simp [h]
  obtain ⟨nm, hres⟩ := hres
  have hc : (if o.reentrant = true then !env.reentrantDirExists else true) = true := by
    cases hrc : o.reentrant
    · simp
    · simp [hcreate hrc]
  have hdigc : ¬(env.actualDigest ≠ sha ∧ sha ≠ skipSentinel) := by
    simp [hdig]
  have key : ∃ msg, (msg = "expected 1 result" ∨ msg = "no layer data") ∧
      runAcbrun o sha env =
        ([Action.mkWorkingDir, Action.validateDigest, Action.extractImage],
          Outcome.panicked msg) := by
    rcases hbad with hb | ⟨m, hm, hlay⟩
    · have hget : getLayers env.manifestParsed = .error "expected 1 result" := by
        rw [hman]
        unfold getLayers
        match ms, hb with
        | [], _ => rfl
        | [m], hb => exact absurd rfl (hb m)
        | m1 :: m2 :: rest, _ => rfl
      refine ⟨"expected 1 result", .inl rfl, ?_⟩
      have hload : loadPhase sha env true =
          ([Action.validateDigest, Action.extractImage],
            some (Outcome.panicked "expected 1 result")) := by
        unfold loadPhase
        rw [if_neg hdigc, hget]
        rfl
      unfold runAcbrun
      rw [hres]
      simp only [hc, hload]
    · have hget : getLayers env.manifestParsed = .ok m.layers := by
        rw [hman, hm]
        rfl
      refine ⟨"no layer data", .inr rfl, ?_⟩
      have hload : loadPhase sha env true =
          ([Action.validateDigest, Action.extractImage],
            some (Outcome.panicked "no layer data")) := by
        unfold loadPhase
        rw [if_neg hdigc, hget, hlay]
        rfl
      unfold runAcbrun
      rw [hres]
      simp only [hc, hload]
  obtain ⟨msg, hmsg, hrun⟩ := key
  rw [hrun]
  refine ⟨?_, ?_, ?_, ?_⟩
  · rcases hmsg with h | h
    · exact .inl (by rw [h])
    · exact .inr (by rw [h])
  · intro l h
    simp at h
  · intro d s i h
    simp at h
  · intro t i h
    simp at h

/-- Claim C7 witness: the theorem applied to a concrete two-element
manifest. -/
theorem c7_witness :
    (({} : Opts).name = "" ∧ ({} : Opts).reentrant = false) ∧
    ((runAcbrun {} "sha"
        { actualDigest := "sha", manifestParsed := some [{}, {}] }).2 =
          .panicked "expected 1 result" ∨
      (runAcbrun {} "sha"
        { actualDigest := "sha", manifestParsed := some [{}, {}] }).2 =
          .panicked "no layer data") ∧
    (∀ d s i, Action.runcRun d s i ∉
      (runAcbrun {} "sha"
        { actualDigest := "sha", manifestParsed := some [{}, {}] }).1) := by
  have h := c7_manifest_cardinality {} "sha"
    { actualDigest := "sha", manifestParsed := some [{}, {}] } [{}, {}]
    (by simp) (by simp) rfl rfl (.inl (fun m hm => by simp at hm))
  exact ⟨⟨rfl, rfl⟩, h.1, h.2.2.1⟩

/-- Claim C8: on the reentrant path, once the container is ensured running
(either the query already reported running, or the detached start
succeeded), `runc exec` of the caller's command is always issued and its
numeric exit code becomes the process's own exit status (a nonzero code via
`os.Exit`, zero by running to normal completion). -/
theorem c8_exec_exit_code (o : Opts) (sha : String) (env : Env) (n : Nat)
    (hname : o.name ≠ "") (hre : o.reentrant = true)
    (hdir : env.reentrantDirExists = true)
    (hens : IsContainerRunning env.stateQuery = .ok true ∨
      (IsContainerRunning env.stateQuery = .ok false ∧ env.runOk = true))
    (hexec : env.execOutcome = some n) (hout : o.output = "") :
    Action.runcExec o.interactive o.interactive ∈ (runAcbrun o sha env).1 ∧
    (runAcbrun o sha env).2 = .exited n := by
  have hrp2 : (runPhase o env).2 = none := by
    rcases hens with hq | ⟨hq, hok⟩
    · rw [runPhase_running hre hq]
    · unfold runPhase
      rw [hre, hq]
      simp [hok]
  have hex : execPhase o env =
      (if n = 0 then (([Action.runcExec o.interactive o.interactive], none) :
          List Action × Option Outcome)
        else ([Action.runcExec o.interactive o.interactive], some (.exited n))) := by
    unfold execPhase
    rw [hre, hexec]
    by_cases h : n = 0 <;> simp [h]
  obtain ⟨htr, hoc⟩ :=
    @runAcbrun_skipload_outcome o sha env hname hre hdir
  rw [hrp2] at htr hoc
  simp only at htr hoc
  by_cases h0 : n = 0
  · rw [hex, if_pos h0] at htr hoc
    simp only at htr hoc
    constructor
    · rw [htr]
      simp
    · rw [hoc]
      unfold outputPhase
      rw [hout]
      simp [h0]
  · rw [hex, if_neg h0] at htr hoc
    simp only at htr hoc
    constructor
    · rw [htr]
      simp
    · rw [hoc]

/-- Claim C8 witness: the theorem at a container already running and an
exec exiting with code 3. -/
theorem c8_witness :
    IsContainerRunning (StateQueryResult.output (some "running")) = .ok true ∧
    Action.runcExec false false ∈
      (runAcbrun { reentrant := true, name := "c" } "sha"
        { reentrantDirExists := true, execOutcome := some 3 }).1 ∧
    (runAcbrun { reentrant := true, name := "c" } "sha"
      { reentrantDirExists := true, execOutcome := some 3 }).2 = .exited 3 := by
  have h := c8_exec_exit_code { reentrant := true, name := "c" } "sha"
    { reentrantDirExists := true, execOutcome := some 3 } 3
    (by decide) rfl rfl (.inl rfl) rfl rfl
  exact ⟨rfl, h.1, h.2⟩

/-! ### Hard-link resolution lemmas -/

theorem resolveLinks_mono {links : Links} :
    ∀ {fs fs2 : FS}, resolveLinks fs links = .ok fs2 →
    ∀ q n, fs.lookup q = some n → fs2.lookup q = some n := by
  induction links with
  | nil =>
    intro fs fs2 h q n hq
    unfold resolveLinks at h
    injection h with h
    rw [← h]
    exact hq
  | cons kv rest ih =>
    obtain ⟨k, v⟩ := kv
    intro fs fs2 h q n hq
    unfold resolveLinks at h
    cases hv : fs.lookup v with
    | none =>
      rw [hv] at h
      simp at h
    | some nv =>
      rw [hv] at h
      cases nv with
      | dir m => simp at h
      | file m c =>
        cases hk : fs.lookup k with
        | some _ =>
          rw [hk] at h
          simp at h
        | none =>
          rw [hk] at h
          refine ih h q n ?_
          rw [FS.lookup_insert, if_neg ?_]
          · exact hq
          · intro hkq
            rw [← hkq, hk] at hq
            exact Option.noConfusion hq
      | symlink t =>
        cases hk : fs.lookup k with
        | some _ =>
          rw [hk] at h
          simp at h
        | none =>
          rw [hk] at h
          refine ih h q n ?_
          rw [FS.lookup_insert, if_neg ?_]
          · exact hq
          · intro hkq
            rw [← hkq, hk] at hq
            exact Option.noConfusion hq

theorem resolveLinks_shared {links : Links} :
    ∀ {fs fs2 : FS}, resolveLinks fs links = .ok fs2 →
    ∀ k v, mapLookup links k = some v →
    ∃ n, fs2.lookup k = some n ∧ fs2.lookup v = some n := by
  induction links with
  | nil =>
    intro fs fs2 h k v hkv
    simp [mapLookup] at hkv
  | cons kv rest ih =>
    obtain ⟨k0, v0⟩ := kv
    intro fs fs2 h k v hkv
    unfold resolveLinks at h
    cases hv : fs.lookup v0 with
    | none =>
      rw [hv] at h
      simp at h
    | some nv =>
      rw [hv] at h
      cases nv with
      | dir m => simp at h
      | file m c =>
        cases hk : fs.lookup k0 with
        | some _ =>
          rw [hk] at h
          simp at h
        | none =>
          rw [hk] at h
          unfold mapLookup at hkv
          by_cases hkk : k0 = k
          · rw [if_pos hkk] at hkv
            injection hkv with hkv
            subst hkk
            subst hkv
            have hne : k0 ≠ v0 := by
              intro he
              rw [he, hv] at hk
              exact Option.noConfusion hk
            refine ⟨.file m c, ?_, ?_⟩
            · exact resolveLinks_mono h k0 _ (by rw [FS.lookup_insert, if_pos rfl])
            · exact resolveLinks_mono h v0 _
                (by rw [FS.lookup_insert, if_neg hne]; exact hv)
          · rw [if_neg hkk] at hkv
            exact ih h k v hkv
      | symlink t =>
        cases hk : fs.lookup k0 with
        | some _ =>
          rw [hk] at h
          simp at h
        | none =>
          rw [hk] at h
          unfold mapLookup at hkv
          by_cases hkk : k0 = k
          · rw [if_pos hkk] at hkv
            injection hkv with hkv
            subst hkk
            subst hkv
            have hne : k0 ≠ v0 := by
              intro he
              rw [he, hv] at hk
              exact Option.noConfusion hk
            refine ⟨.symlink t, ?_, ?_⟩
            · exact resolveLinks_mono h k0 _ (by rw [FS.lookup_insert, if_pos rfl])
            · exact resolveLinks_mono h v0 _
                (by rw [FS.lookup_insert, if_neg hne]; exact hv)
          · rw [if_neg hkk] at hkv
            exact ih h k v hkv

/-- Claim C4: hard links are recorded as (link path, target path) pairs
during the single forward pass and resolved only after the whole stream is
consumed. First part: whenever extraction succeeds, every recorded pair
denotes two paths carrying the same node (same underlying content) in the
final filesystem — so a target entry may appear later in the stream.
Second part: the concrete two-entry family "hard link first, its regular
target later" extracts successfully, both paths holding the target's
content. Third part: a pair whose target does not exist at resolution time
is fatal. -/
theorem c4_hardlink_deferral :
    (∀ (a : TarStream) (dst : Path) (fs0 fs1 fs : FS) (links : Links),
      extractEntries dst (fs0, []) a.entries = .ok (fs1, links) →
      a.ending = .trailer →
      resolveLinks fs1 links = .ok fs →
      ExtractTarGz a dst fs0 = .ok fs ∧
      ∀ k v, mapLookup links k = some v →
        ∃ n, fs.lookup k = some n ∧ fs.lookup v = some n) ∧
    (∀ (dst : Path) (dm fm : Nat) (c : List Nat) (ls tn : String),
      pathClean dst = true → cleanSegOk ls = true → cleanSegOk tn = true →
      ls ≠ tn →
      ExtractTarGz
          { entries := [{ typ := .link, name := [ls], linkname := [tn] },
                        { typ := .reg, name := [tn], mode := fm, content := c }],
            ending := .trailer }
          dst [(dst, .dir dm)] =
        .ok [(dst ++ [ls], .file fm c), (dst ++ [tn], .file fm c),
          (dst, .dir dm)] ∧
      FS.lookup [(dst ++ [ls], .file fm c), (dst ++ [tn], .file fm c),
        (dst, .dir dm)] (dst ++ [ls]) = some (.file fm c) ∧
      FS.lookup [(dst ++ [ls], .file fm c), (dst ++ [tn], .file fm c),
        (dst, .dir dm)] (dst ++ [tn]) = some (.file fm c)) ∧
    (∀ (fs : FS) (k v : Path) (rest : Links),
      fs.lookup v = none →
      resolveLinks fs ((k, v) :: rest) = .error (.linkFailed v k)) := by
  refine ⟨?_, ?_, ?_⟩
  · intro a dst fs0 fs1 fs links hmain hend hres
    constructor
    · unfold ExtractTarGz
      rw [hmain, hend]
      exact hres
    · exact resolveLinks_shared hres
  · intro dst dm fm c ls tn hdst hls htn hne
    have h1 : cleanJoin dst [ls] = dst ++ [ls] :=
      cleanJoin_of_clean dst [ls] hdst (by simp [pathClean, hls])
    have h2 : cleanJoin dst [tn] = dst ++ [tn] :=
      cleanJoin_of_clean dst [tn] hdst (by simp [pathClean, htn])
    have hd1 : dst ≠ dst ++ [tn] := by simp
    have hd2 : dst ≠ dst ++ [ls] := by simp
    have hd3 : dst ++ [ls] ≠ dst ++ [tn] := by
      intro h
      exact hne (by simpa using List.append_cancel_left h)
    have hd4 : dst ++ [tn] ≠ dst ++ [ls] := fun h => hd3 h.symm
    have hdrop : (dst ++ [tn]).dropLast = dst := by simp
    have e1 : extractEntry dst ([(dst, Node.dir dm)], [])
        { typ := .link, name := [ls], linkname := [tn] } =
        .ok ([(dst, Node.dir dm)], [(dst ++ [ls], dst ++ [tn])]) := by
      simp [extractEntry, h1, h2, mapInsert]
    have e2 : extractEntry dst ([(dst, Node.dir dm)], [(dst ++ [ls], dst ++ [tn])])
        { typ := .reg, name := [tn], mode := fm, content := c } =
        .ok ([(dst ++ [tn], Node.file fm c), (dst, Node.dir dm)],
          [(dst ++ [ls], dst ++ [tn])]) := by
      simp [extractEntry, h2, FS.parentIsDir, FS.isDir, FS.lookup, FS.insert,
        hdrop, hd1, Ne.symm hd1]
    have e3 : resolveLinks [(dst ++ [tn], Node.file fm c), (dst, Node.dir dm)]
        [(dst ++ [ls], dst ++ [tn])] =
        .ok [(dst ++ [ls], Node.file fm c), (dst ++ [tn], Node.file fm c),
          (dst, Node.dir dm)] := by
      simp [resolveLinks, FS.lookup, FS.insert, hd2, Ne.symm hd2, hd4]
    refine ⟨?_, ?_, ?_⟩
    · unfold ExtractTarGz extractEntries
      rw [e1]
      simp only []
      unfold extractEntries
      rw [e2]
      simp only []
      unfold extractEntries
      exact e3
    · simp [FS.lookup]
    · simp [FS.lookup, hd3, hd4]
  · intro fs k v rest hv
    unfold resolveLinks
    rw [hv]

/-- Claim C4 witness: the orderly two-entry family at a concrete archive
(link `l` to target `t` appearing later), with the hypotheses discharged by
evaluation. -/
theorem c4_witness :
    (pathClean ["w"] = true ∧ cleanSegOk "l" = true ∧ cleanSegOk "t" = true ∧
      ("l" : String) ≠ "t") ∧
    ExtractTarGz
        { entries := [{ typ := .link, name := ["l"], linkname := ["t"] },
                      { typ := .reg, name := ["t"], mode := 420,
                        content := [7, 8] }],
          ending := .trailer }
        ["w"] [(["w"], .dir 0)] =
      .ok [(["w", "l"], .file 420 [7, 8]), (["w", "t"], .file 420 [7, 8]),
        (["w"], .dir 0)] ∧
    FS.lookup [(["w", "l"], .file 420 [7, 8]), (["w", "t"], .file 420 [7, 8]),
      (["w"], .dir 0)] ["w", "l"] = some (.file 420 [7, 8]) := by
  have h := c4_hardlink_deferral.2.1 ["w"] 0 420 [7, 8] "l" "t"
    (by decide) (by decide) (by decide) (by decide)
  exact ⟨⟨by decide, by decide, by decide, by decide⟩, h.1, h.2.1⟩

/-! ### Order lemmas for the WalkDir visit order -/

theorem charListLt_irrefl : ∀ l : List Char, charListLt l l = false
  | [] => rfl
  | c :: cs => by
    simp only [charListLt, lt_irrefl, if_false]
    exact charListLt_irrefl cs

theorem charListLt_trans : ∀ {a b c : List Char}, charListLt a b = true →
    charListLt b c = true → charListLt a c = true
  | [], _ :: _, _ :: _, _, _ => rfl
  | x :: xs, y :: ys, z :: zs, h1, h2 => by
    simp only [charListLt] at h1 h2 ⊢
    by_cases hxy : x.toNat < y.toNat
    · by_cases hyz : y.toNat < z.toNat
      · rw [if_pos (Nat.lt_trans hxy hyz)]
      · rw [if_neg hyz] at h2
        by_cases hzy : z.toNat < y.toNat
        · rw [if_pos hzy] at h2
          exact Bool.noConfusion h2
        · have hyz2 : y.toNat = z.toNat :=
            Nat.le_antisymm (Nat.le_of_not_lt hzy) (Nat.le_of_not_lt hyz)
          rw [if_pos (hyz2 ▸ hxy)]
    · rw [if_neg hxy] at h1
      by_cases hyx : y.toNat < x.toNat
      · rw [if_pos hyx] at h1
        exact Bool.noConfusion h1
      · have hxy2 : x.toNat = y.toNat :=
          Nat.le_antisymm (Nat.le_of_not_lt hyx) (Nat.le_of_not_lt hxy)
        rw [if_neg hyx] at h1
        rw [hxy2]
        by_cases hyz : y.toNat < z.toNat
        · rw [if_pos hyz]
        · rw [if_neg hyz] at h2 ⊢
          by_cases hzy : z.toNat < y.toNat
          · rw [if_pos hzy] at h2
            exact Bool.noConfusion h2
          · rw [if_neg hzy] at h2 ⊢
            exact charListLt_trans h1 h2

theorem charListLt_total : ∀ a b : List Char,
    a = b ∨ charListLt a b = true ∨ charListLt b a = true
  | [], [] => .inl rfl
  | [], _ :: _ => .inr (.inl rfl)
  | _ :: _, [] => .inr (.inr rfl)
  | x :: xs, y :: ys => by
    rcases Nat.lt_trichotomy x.toNat y.toNat with h | h | h
    · exact .inr (.inl (by simp [charListLt, h]))
    · have hx : x = y := Char.eq_of_val_eq (UInt32.ext h)
      subst hx
      rcases charListLt_total xs ys with h2 | h2 | h2
      · exact .inl (by rw [h2])
      · exact .inr (.inl (by simp [charListLt, h2]))
      · exact .inr (.inr (by simp [charListLt, h2]))
    · exact .inr (.inr (by simp [charListLt, h, Nat.not_lt_of_lt h]))

theorem segLt_irrefl (s : String) : segLt s s = false :=
  charListLt_irrefl s.data

theorem segLt_trans {a b c : String} (h1 : segLt a b = true)
    (h2 : segLt b c = true) : segLt a c = true :=
  charListLt_trans h1 h2

theorem segLt_total (a b : String) :
    a = b ∨ segLt a b = true ∨ segLt b a = true := by
  rcases charListLt_total a.data b.data with h | h | h
  · exact .inl (by cases a; cases b; exact congrArg String.mk h)
  · exact .inr (.inl h)
  · exact .inr (.inr h)

theorem pathLt_irrefl : ∀ p : Path, pathLt p p = false
  | [] => rfl
  | s :: rest => by
    simp only [pathLt, segLt_irrefl, if_false]
    exact pathLt_irrefl rest

theorem pathLt_trans : ∀ {a b c : Path}, pathLt a b = true →
    pathLt b c = true → pathLt a c = true
  | [], _ :: _, _ :: _, _, _ => rfl
  | x :: xs, y :: ys, z :: zs, h1, h2 => by
    simp only [pathLt] at h1 h2 ⊢
    by_cases hxy : segLt x y = true
    · by_cases hyz : segLt y z = true
      · rw [if_pos (segLt_trans hxy hyz)]
      · rw [if_neg hyz] at h2
        by_cases hzy : segLt z y = true
        · rw [if_pos hzy] at h2
          exact Bool.noConfusion h2
        · have : y = z := by
            rcases segLt_total y z with h | h | h
            · exact h
            · exact absurd h hyz
            · exact absurd h hzy
          subst this
          rw [if_pos hxy]
    · rw [if_neg hxy] at h1
      by_cases hyx : segLt y x = true
      · rw [if_pos hyx] at h1
        exact Bool.noConfusion h1
      · have hxy3 : x = y := by
          rcases segLt_total x y with h | h | h
          · exact h
          · exact absurd h hxy
          · exact absurd h hyx
        subst hxy3
        rw [if_neg hyx] at h1
        by_cases hyz : segLt x z = true
        · rw [if_pos hyz]
        · rw [if_neg hyz] at h2 ⊢
          by_cases hzy : segLt z x = true
          · rw [if_pos hzy] at h2
            exact Bool.noConfusion h2
          · rw [if_neg hzy] at h2 ⊢
            exact pathLt_trans h1 h2

theorem pathLt_total : ∀ a b : Path, a = b ∨ pathLt a b = true ∨ pathLt b a = true
  | [], [] => .inl rfl
  | [], _ :: _ => .inr (.inl rfl)
  | _ :: _, [] => .inr (.inr rfl)
  | x :: xs, y :: ys => by
    rcases segLt_total x y with h | h | h
    · subst h
      rcases pathLt_total xs ys with h2 | h2 | h2
      · exact .inl (by rw [h2])
      · exact .inr (.inl (by simp [pathLt, segLt_irrefl, h2]))
      · exact .inr (.inr (by simp [pathLt, segLt_irrefl, h2]))
    · exact .inr (.inl (by simp [pathLt, h]))
    · have hxy : segLt x y = false := by
        rcases hb : segLt x y with _ | _
        · rfl
        · exact absurd (segLt_trans hb h) (by simp [segLt_irrefl])
      exact .inr (.inr (by simp [pathLt, h, hxy]))

theorem pathLt_append : ∀ (p q : Path), q ≠ [] → pathLt p (p ++ q) = true
  | [], q, hq => by
    cases q with
    | nil => exact absurd rfl hq
    | cons a l => rfl
  | s :: rest, q, hq => by
    simp only [List.cons_append, pathLt, segLt_irrefl, if_false]
    exact pathLt_append rest q hq

/-! ### sortPaths, keys and prefix lemmas -/

theorem insertSorted_perm (p : Path) : ∀ l : List Path,
    (insertSorted p l).Perm (p :: l)
  | [] => List.Perm.refl _
  | q :: rest => by
    unfold insertSorted
    by_cases h : pathLt p q = true
    · rw [if_pos h]
    · rw [if_neg h]
      exact ((insertSorted_perm p rest).cons q).trans (List.Perm.swap p q rest)

theorem sortPaths_perm : ∀ l : List Path, (sortPaths l).Perm l
  | [] => List.Perm.refl _
  | p :: rest => by
    unfold sortPaths
    simp only [List.foldr_cons]
    exact (insertSorted_perm p _).trans ((sortPaths_perm rest).cons p)

theorem mem_sortPaths {q : Path} {l : List Path} : q ∈ sortPaths l ↔ q ∈ l :=
  (sortPaths_perm l).mem_iff

theorem sortPaths_nodup {l : List Path} (h : l.Nodup) : (sortPaths l).Nodup :=
  (sortPaths_perm l).nodup_iff.mpr h

theorem insertSorted_sorted {p : Path} : ∀ {l : List Path}, p ∉ l →
    l.Sorted pathRel → (insertSorted p l).Sorted pathRel
  | [], _, _ => List.sorted_singleton p
  | q :: rest, hnm, hs => by
    unfold insertSorted
    by_cases h : pathLt p q = true
    · rw [if_pos h]
      refine List.sorted_cons.mpr ⟨?_, hs⟩
      intro b hb
      rcases List.mem_cons.mp hb with hb | hb
      · exact hb ▸ h
      · have hrest := List.sorted_cons.mp hs
        exact pathLt_trans h (hrest.1 b hb)
    · rw [if_neg h]
      have hpq : p ≠ q := fun he => hnm (he ▸ List.mem_cons_self q rest)
      have hqp : pathRel q p := by
        rcases pathLt_total p q with h2 | h2 | h2
        · exact absurd h2 hpq
        · exact absurd h2 h
        · exact h2
      have hrest := List.sorted_cons.mp hs
      refine List.sorted_cons.mpr ⟨?_, ?_⟩
      · intro b hb
        rcases List.mem_cons.mp ((insertSorted_perm p rest).mem_iff.mp hb) with hb | hb
        · rw [hb]
          exact hqp
        · exact hrest.1 b hb
      · exact insertSorted_sorted (fun hc => hnm (List.mem_cons_of_mem q hc))
          hrest.2

theorem sortPaths_sorted : ∀ {l : List Path}, l.Nodup →
    (sortPaths l).Sorted pathRel
  | [], _ => List.sorted_nil
  | p :: rest, h => by
    unfold sortPaths
    simp only [List.foldr_cons]
    have hnd := List.nodup_cons.mp h
    exact insertSorted_sorted
      (fun hc => hnd.1 (mem_sortPaths.mp hc)) (sortPaths_sorted hnd.2)

theorem mem_dedupPaths : ∀ {l seen : List Path} {q : Path},
    q ∈ dedupPaths seen l ↔ q ∈ l ∧ q ∉ seen
  | [], seen, q => by simp [dedupPaths]
  | p :: rest, seen, q => by
    unfold dedupPaths
    by_cases h : p ∈ seen
    · rw [if_pos h, mem_dedupPaths]
      constructor
      · exact fun ⟨h1, h2⟩ => ⟨List.mem_cons_of_mem p h1, h2⟩
      · rintro ⟨h1, h2⟩
        rcases List.mem_cons.mp h1 with hq | hq
        · exact absurd (hq ▸ h) h2
        · exact ⟨hq, h2⟩
    · rw [if_neg h]
      constructor
      · intro hm
        rcases List.mem_cons.mp hm with hq | hq
        · exact ⟨hq ▸ List.mem_cons_self p rest, hq ▸ h⟩
        · have := mem_dedupPaths.mp hq
          refine ⟨List.mem_cons_of_mem p this.1, ?_⟩
          intro hc
          exact this.2 (List.mem_cons_of_mem p hc)
      · rintro ⟨h1, h2⟩
        rcases List.mem_cons.mp h1 with hq | hq
        · exact hq ▸ List.mem_cons_self p _
        · by_cases hqp : q = p
          · exact hqp ▸ List.mem_cons_self p _
          · refine List.mem_cons_of_mem p (mem_dedupPaths.mpr ⟨hq, ?_⟩)
            intro hc
            rcases List.mem_cons.mp hc with hc | hc
            · exact hqp hc
            · exact h2 hc

theorem dedupPaths_nodup : ∀ (l seen : List Path), (dedupPaths seen l).Nodup
  | [], seen => List.nodup_nil
  | p :: rest, seen => by
    unfold dedupPaths
    by_cases h : p ∈ seen
    · rw [if_pos h]
      exact dedupPaths_nodup rest seen
    · rw [if_neg h]
      refine List.nodup_cons.mpr ⟨?_, dedupPaths_nodup rest (p :: seen)⟩
      intro hc
      exact (mem_dedupPaths.mp hc).2 (List.mem_cons_self p seen)

theorem lookup_ne_none_iff {fs : FS} {q : Path} :
    fs.lookup q ≠ none ↔ q ∈ fs.map Prod.fst := by
  induction fs with
  | nil => simp [FS.lookup]
  | cons pn rest ih =>
    obtain ⟨p, n⟩ := pn
    unfold FS.lookup
    by_cases h : p = q
    · subst h
      rw [if_pos rfl]
      constructor
      · intro h2
        simp only [List.map_cons, List.mem_cons]
        exact .inl trivial
      · intro h2 hc
        exact Option.noConfusion hc
    · rw [if_neg h]
      simp only [List.map_cons, List.mem_cons]
      rw [ih]
      constructor
      · exact fun h2 => .inr h2
      · rintro (h2 | h2)
        · exact absurd h2.symm h
        · exact h2

theorem mem_keys {fs : FS} {q : Path} : q ∈ FS.keys fs ↔ fs.lookup q ≠ none := by
  constructor
  · intro h
    exact lookup_ne_none_iff.mpr (mem_dedupPaths.mp h).1
  · intro h
    exact mem_dedupPaths.mpr ⟨lookup_ne_none_iff.mp h, List.not_mem_nil q⟩

theorem keys_nodup (fs : FS) : (FS.keys fs).Nodup :=
  dedupPaths_nodup _ _

theorem pathIsPrefix_append (pre : Path) : ∀ (r : Path), pathIsPrefix pre (pre ++ r) = true := by
  induction pre with
  | nil => intro r; rfl
  | cons a ps ih =>
    intro r
    simp only [List.cons_append, pathIsPrefix, if_pos rfl]
    exact ih r

theorem pathIsPrefix_iff : ∀ {pre p : Path},
    pathIsPrefix pre p = true ↔ ∃ r, p = pre ++ r
  | [], p => by simp [pathIsPrefix]
  | a :: ps, [] => by simp [pathIsPrefix]
  | a :: ps, b :: qs => by
    unfold pathIsPrefix
    by_cases h : a = b
    · subst h
      rw [if_pos rfl, pathIsPrefix_iff]
      constructor
      · rintro ⟨r, hr⟩
        exact ⟨r, by rw [List.cons_append, hr]⟩
      · rintro ⟨r, hr⟩
        rw [List.cons_append] at hr
        exact ⟨r, by injection hr⟩
    · rw [if_neg h]
      constructor
      · intro hc
        exact Bool.noConfusion hc
      · rintro ⟨r, hr⟩
        rw [List.cons_append] at hr
        injection hr with h1 h2
        exact absurd h1.symm h

/-! ### Tree-shaped filesystems (the invariant behind the round trip) -/

theorem append_ne_left {dst r : Path} (hr : r ≠ []) : dst ++ r ≠ dst := by
  intro h
  have hl := congrArg List.length h
  simp only [List.length_append] at hl
  exact hr (List.eq_nil_of_length_eq_zero (by omega))

theorem dropLast_ne_self {l : Path} (h : l ≠ []) : l.dropLast ≠ l := by
  intro he
  have hl := congrArg List.length he
  rw [List.length_dropLast] at hl
  have : l.length ≠ 0 := fun h0 => h (List.eq_nil_of_length_eq_zero h0)
  omega

theorem treeFS_init (dst : Path) (dm : Nat) : TreeFS dst [(dst, .dir dm)] := by
  refine ⟨⟨dm, by simp [FS.lookup]⟩, ?_, ?_⟩
  · intro q n hq
    unfold FS.lookup at hq
    by_cases h : dst = q
    · exact .inl h.symm
    · rw [if_neg h] at hq
      exact Option.noConfusion hq
  · intro q n hq hne
    unfold FS.lookup at hq
    rw [if_neg (fun h => hne h.symm)] at hq
    exact Option.noConfusion hq

theorem treeFS_insert {dst : Path} {fs : FS} {r : Path} {n : Node}
    (ht : TreeFS dst fs) (hr : r ≠ []) (hclean : pathClean r = true)
    (hparent : ∃ m, fs.lookup (dst ++ r).dropLast = some (.dir m))
    (hold : fs.lookup (dst ++ r) = none ∨
      ∃ mm cc, fs.lookup (dst ++ r) = some (.file mm cc)) :
    TreeFS dst (fs.insert (dst ++ r) n) := by
  have hne : dst ++ r ≠ dst := append_ne_left hr
  have hnotdir : ∀ m2, fs.lookup (dst ++ r) ≠ some (.dir m2) := by
    intro m2 hc
    rcases hold with h | ⟨mm, cc, h⟩
    · rw [h] at hc
      exact Option.noConfusion hc
    · rw [h] at hc
      injection hc with hc
      exact Node.noConfusion hc
  refine ⟨?_, ?_, ?_⟩
  · obtain ⟨m, hm⟩ := ht.root
    refine ⟨m, ?_⟩
    rw [FS.lookup_insert, if_neg hne]
    exact hm
  · intro q nq hq
    rw [FS.lookup_insert] at hq
    by_cases h : dst ++ r = q
    · exact .inr ⟨r, h.symm, hr, hclean⟩
    · rw [if_neg h] at hq
      exact ht.shape q nq hq
  · intro q nq hq hqne
    rw [FS.lookup_insert] at hq
    by_cases h : dst ++ r = q
    · subst h
      obtain ⟨m, hm⟩ := hparent
      refine ⟨m, ?_⟩
      rw [FS.lookup_insert,
        if_neg (fun hc => dropLast_ne_self
          (fun h0 => hr (List.append_eq_nil.mp h0).2) hc.symm)]
      exact hm
    · rw [if_neg h] at hq
      obtain ⟨m, hm⟩ := ht.parent q nq hq hqne
      refine ⟨m, ?_⟩
      rw [FS.lookup_insert, if_neg ?_]
      · exact hm
      · intro hc
        rw [hc] at hnotdir
        exact hnotdir m hm

theorem isDir_exists {fs : FS} {p : Path} (h : fs.isDir p = true) :
    ∃ m, fs.lookup p = some (.dir m) := by
  unfold FS.isDir at h
  cases hl : fs.lookup p with
  | none =>
    rw [hl] at h
    exact Bool.noConfusion h
  | some n =>
    cases n with
    | dir m => exact ⟨m, rfl⟩
    | file m c =>
      rw [hl] at h
      simp at h
    | symlink t =>
      rw [hl] at h
      simp at h

theorem extractEntry_treeFS {dst : Path} {fs fs2 : FS} {links2 : Links}
    {e : TarEntry} (hdst : pathClean dst = true) (ht : TreeFS dst fs)
    (he : entryOk e = true)
    (hx : extractEntry dst (fs, []) e = .ok (fs2, links2)) :
    TreeFS dst fs2 ∧ links2 = [] := by
  obtain ⟨typ, name, linkname, mode, content⟩ := e
  simp only [entryOk, Bool.and_eq_true] at he
  obtain ⟨⟨htyp, hname⟩, hnem⟩ := he
  have hne : name ≠ [] := by
    cases name with
    | nil => simp at hnem
    | cons a l => simp
  have hp : cleanJoin dst name = dst ++ name :=
    cleanJoin_of_clean dst name hdst hname
  cases typ with
  | link => simp at htyp
  | other c => simp at htyp
  | dir =>
    simp only [extractEntry, hp] at hx
    cases hl : fs.lookup (dst ++ name) with
    | some nd =>
      rw [hl] at hx
      injection hx with hx
      injection hx with hx1 hx2
      exact ⟨hx1 ▸ ht, hx2.symm⟩
    | none =>
      rw [hl] at hx
      cases hpd : fs.parentIsDir (dst ++ name) with
      | false =>
        rw [hpd] at hx
        simp at hx
      | true =>
        rw [hpd] at hx
        simp only [if_true] at hx
        injection hx with hx
        injection hx with hx1 hx2
        refine ⟨hx1 ▸ ?_, hx2.symm⟩
        exact treeFS_insert ht hne hname (isDir_exists hpd) (.inl hl)
  | reg =>
    simp only [extractEntry, hp] at hx
    cases hpd : fs.parentIsDir (dst ++ name) with
    | false =>
      rw [hpd] at hx
      simp at hx
    | true =>
      rw [hpd] at hx
      simp only [if_true] at hx
      cases hl : fs.lookup (dst ++ name) with
      | none =>
        rw [hl] at hx
        injection hx with hx
        injection hx with hx1 hx2
        refine ⟨hx1 ▸ ?_, hx2.symm⟩
        exact treeFS_insert ht hne hname (isDir_exists hpd) (.inl hl)
      | some nd =>
        rw [hl] at hx
        cases nd with
        | dir m => simp at hx
        | symlink t => simp at hx
        | file m c =>
          injection hx with hx
          injection hx with hx1 hx2
          refine ⟨hx1 ▸ ?_, hx2.symm⟩
          exact treeFS_insert ht hne hname (isDir_exists hpd)
            (.inr ⟨m, c, hl⟩)
  | symlink =>
    simp only [extractEntry, hp] at hx
    cases hl : fs.lookup (dst ++ name) with
    | some nd =>
      rw [hl] at hx
      simp at hx
    | none =>
      rw [hl] at hx
      cases hpd : fs.parentIsDir (dst ++ name) with
      | false =>
        rw [hpd] at hx
        simp at hx
      | true =>
        rw [hpd] at hx
        simp only [if_true] at hx
        injection hx with hx
        injection hx with hx1 hx2
        refine ⟨hx1 ▸ ?_, hx2.symm⟩
        exact treeFS_insert ht hne hname (isDir_exists hpd) (.inl hl)

theorem extractEntries_treeFS {dst : Path} (hdst : pathClean dst = true) :
    ∀ {es : List TarEntry} {fs fs1 : FS} {links : Links},
    TreeFS dst fs → (∀ e ∈ es, entryOk e = true) →
    extractEntries dst (fs, []) es = .ok (fs1, links) →
    TreeFS dst fs1 ∧ links = [] := by
  intro es
  induction es with
  | nil =>
    intro fs fs1 links ht hok hx
    unfold extractEntries at hx
    injection hx with hx
    injection hx with hx1 hx2
    exact ⟨hx1 ▸ ht, hx2.symm⟩
  | cons e rest ih =>
    intro fs fs1 links ht hok hx
    unfold extractEntries at hx
    cases hstep : extractEntry dst (fs, []) e with
    | error err =>
      rw [hstep] at hx
      exact Except.noConfusion hx
    | ok st2 =>
      rw [hstep] at hx
      obtain ⟨fs2, links2⟩ := st2
      obtain ⟨ht2, hl2⟩ := extractEntry_treeFS hdst ht
        (hok e (List.mem_cons_self e rest)) hstep
      subst hl2
      exact ih ht2 (fun e2 he2 => hok e2 (List.mem_cons_of_mem e he2)) hx

theorem extract_treeFS {A : TarStream} {dst : Path} {dm : Nat} {fs : FS}
    (hdst : pathClean dst = true) (hok : ∀ e ∈ A.entries, entryOk e = true)
    (hex : ExtractTarGz A dst [(dst, .dir dm)] = .ok fs) :
    TreeFS dst fs := by
  unfold ExtractTarGz at hex
  cases hx : extractEntries dst ([(dst, .dir dm)], []) A.entries with
  | error err =>
    rw [hx] at hex
    exact Except.noConfusion hex
  | ok st =>
    rw [hx] at hex
    obtain ⟨fs1, links⟩ := st
    obtain ⟨ht1, hl⟩ := extractEntries_treeFS hdst (treeFS_init dst dm) hok hx
    subst hl
    cases hend : A.ending with
    | truncated =>
      rw [hend] at hex
      exact Except.noConfusion hex
    | trailer =>
      rw [hend] at hex
      unfold resolveLinks at hex
      injection hex with hex
      exact hex ▸ ht1
    | boundary =>
      rw [hend] at hex
      unfold resolveLinks at hex
      injection hex with hex
      exact hex ▸ ht1

theorem walkPaths_noFail {fs : FS} {src : Path} :
    ∀ {L : List Path}, (∀ q ∈ L, fs.lookup q ≠ none) →
    walkPaths fs src (fun _ => false) L = (L.map (entryOfWalk fs src), false) := by
  intro L
  induction L with
  | nil => intro h; rfl
  | cons q rest ih =>
    intro h
    unfold walkPaths
    simp only [Bool.false_eq_true, if_false]
    cases hl : fs.lookup q with
    | none => exact absurd hl (h q (List.mem_cons_self q rest))
    | some n =>
      rw [ih (fun p hp => h p (List.mem_cons_of_mem q hp))]
      simp only [List.map_cons]
      have : entryOfWalk fs src q = nodeEntry src q n := by
        unfold entryOfWalk
        rw [hl]
        rfl
      rw [this]

theorem mirrorLookup_init (fs : FS) (dst dst' : Path) (dm' : Nat) (q2 : Path) :
    FS.lookup [(dst', Node.dir dm')] q2 = mirrorLookup fs dst dst' dm' [] q2 := by
  unfold FS.lookup mirrorLookup
  by_cases h : dst' = q2
  · subst h
    rw [if_pos rfl, if_pos rfl]
  · rw [if_neg h, if_neg (fun hc => h hc.symm)]
    by_cases hp : pathIsPrefix dst' q2 = true
    · rw [if_pos hp]
      simp [FS.lookup]
    · rw [if_neg hp]
      rfl

theorem mirrorLookup_append_root (fs : FS) (dst dst' : Path) (dm' : Nat)
    (S : List Path) (q2 : Path) :
    mirrorLookup fs dst dst' dm' (S ++ [dst]) q2 =
      mirrorLookup fs dst dst' dm' S q2 := by
  unfold mirrorLookup
  by_cases h : q2 = dst'
  · rw [if_pos h, if_pos h]
  · rw [if_neg h, if_neg h]
    by_cases hp : pathIsPrefix dst' q2 = true
    · rw [if_pos hp, if_pos hp]
      have hkey : (dst ++ q2.drop dst'.length ∈ S ++ [dst]) ↔
          (dst ++ q2.drop dst'.length ∈ S) := by
        rw [List.mem_append]
        constructor
        · rintro (hm | hm)
          · exact hm
          · exfalso
            simp only [List.mem_singleton] at hm
            have hdrop : q2.drop dst'.length = [] := by
              by_contra hd
              exact append_ne_left hd hm
            obtain ⟨r, hr⟩ := pathIsPrefix_iff.mp hp
            rw [hr, List.drop_left] at hdrop
            rw [hdrop, List.append_nil] at hr
            exact h hr
        · exact fun hm => .inl hm
      by_cases hm : dst ++ q2.drop dst'.length ∈ S
      · rw [if_pos (hkey.mpr hm), if_pos hm]
      · rw [if_neg (fun hc => hm (hkey.mp hc)), if_neg hm]
    · rw [if_neg hp, if_neg hp]

theorem mirrorLookup_append_fresh (fs : FS) (dst dst' : Path) (dm' : Nat)
    (S : List Path) {r : Path} (q2 : Path)
    (hq2 : q2 ≠ dst' ++ r) :
    mirrorLookup fs dst dst' dm' (S ++ [dst ++ r]) q2 =
      mirrorLookup fs dst dst' dm' S q2 := by
  unfold mirrorLookup
  by_cases h : q2 = dst'
  · rw [if_pos h, if_pos h]
  · rw [if_neg h, if_neg h]
    by_cases hp : pathIsPrefix dst' q2 = true
    · rw [if_pos hp, if_pos hp]
      have hkey : (dst ++ q2.drop dst'.length ∈ S ++ [dst ++ r]) ↔
          (dst ++ q2.drop dst'.length ∈ S) := by
        rw [List.mem_append]
        constructor
        · rintro (hm | hm)
          · exact hm
          · exfalso
            simp only [List.mem_singleton] at hm
            have hdrop : q2.drop dst'.length = r := List.append_cancel_left hm
            obtain ⟨r2, hr2⟩ := pathIsPrefix_iff.mp hp
            rw [hr2, List.drop_left] at hdrop
            rw [hdrop] at hr2
            exact hq2 hr2
        · exact fun hm => .inl hm
      by_cases hm : dst ++ q2.drop dst'.length ∈ S
      · rw [if_pos (hkey.mpr hm), if_pos hm]
      · rw [if_neg (fun hc => hm (hkey.mp hc)), if_neg hm]
    · rw [if_neg hp, if_neg hp]

theorem extract_mirror_aux {fs : FS} {dst dst' : Path} {dm' : Nat}
    (hdst' : pathClean dst' = true) (ht : TreeFS dst fs) :
    ∀ (L S : List Path) (fs' : FS),
    (∀ x, (fs.lookup x ≠ none ∧ pathIsPrefix dst x = true) ↔ x ∈ S ++ L) →
    (S ++ L).Sorted pathRel →
    (S ++ L).Nodup →
    (∀ q2, fs'.lookup q2 = mirrorLookup fs dst dst' dm' S q2) →
    ∃ fs'', extractEntries dst' (fs', []) (L.map (entryOfWalk fs dst)) =
        .ok (fs'', []) ∧
      ∀ q2, fs''.lookup q2 = mirrorLookup fs dst dst' dm' (S ++ L) q2 := by
  intro L
  induction L with
  | nil =>
    intro S fs' hdom hsort hnodup hinv
    refine ⟨fs', rfl, ?_⟩
    intro q2
    rw [List.append_nil]
    exact hinv q2
  | cons q rest ih =>
    intro S fs' hdom hsort hnodup hinv
    obtain ⟨hqlook, hqpre⟩ := (hdom q).mpr (by simp)
    cases hn : fs.lookup q with
    | none => exact absurd hn hqlook
    | some n =>
    rcases ht.shape q n hn with hq | ⟨r, hqr, hrne, hrclean⟩
    · -- the walk root itself: its entry is `.` and re-extraction skips it
      have hq2 : dst = q := hq.symm
      subst hq2
      obtain ⟨m, hm⟩ := ht.root
      rw [hn] at hm
      injection hm with hm
      subst hm
      have hentry : entryOfWalk fs dst dst =
          { typ := .dir, name := ["."], mode := m } := by
        unfold entryOfWalk nodeEntry relName
        rw [hn]
        simp [List.drop_length]
      have hstep : extractEntry dst' (fs', [])
          { typ := .dir, name := ["."], mode := m } = .ok (fs', []) := by
        unfold extractEntry
        simp only [cleanJoin_dot dst' hdst']
        rw [hinv dst']
        unfold mirrorLookup
        rw [if_pos rfl]
      have hdom2 : ∀ x, (fs.lookup x ≠ none ∧ pathIsPrefix dst x = true) ↔
          x ∈ (S ++ [dst]) ++ rest := by
        intro x
        rw [List.append_assoc]
        exact hdom x
      have hsort2 : ((S ++ [dst]) ++ rest).Sorted pathRel := by
        rw [List.append_assoc]
        exact hsort
      have hnodup2 : ((S ++ [dst]) ++ rest).Nodup := by
        rw [List.append_assoc]
        exact hnodup
      have hinv2 : ∀ q2, fs'.lookup q2 =
          mirrorLookup fs dst dst' dm' (S ++ [dst]) q2 := by
        intro q2
        rw [mirrorLookup_append_root]
        exact hinv q2
      obtain ⟨fs'', hrun, hinv''⟩ := ih (S ++ [dst]) fs' hdom2 hsort2 hnodup2 hinv2
      refine ⟨fs'', ?_, ?_⟩
      · simp only [List.map_cons, hentry]
        unfold extractEntries
        rw [hstep]
        exact hrun
      · intro q2
        have h2 := hinv'' q2
        rw [List.append_assoc] at h2
        exact h2
    · -- a proper element `dst ++ r`
      subst hqr
      have hqS : dst ++ r ∉ S := by
        intro hc
        have hdisj := (List.nodup_append.mp hnodup).2.2
        exact hdisj hc (by simp)
      have hfresh : fs'.lookup (dst' ++ r) = none := by
        rw [hinv]
        unfold mirrorLookup
        rw [if_neg (append_ne_left hrne),
          if_pos (pathIsPrefix_append dst' r), List.drop_left, if_neg hqS]
      have hparent : fs'.parentIsDir (dst' ++ r) = true := by
        unfold FS.parentIsDir FS.isDir
        rw [List.dropLast_append_of_ne_nil _ hrne]
        by_cases hrd : r.dropLast = []
        · rw [hrd, List.append_nil, hinv dst']
          unfold mirrorLookup
          rw [if_pos rfl]
        · obtain ⟨m2, hm2⟩ := ht.parent (dst ++ r) n hn (append_ne_left hrne)
          rw [List.dropLast_append_of_ne_nil _ hrne] at hm2
          have hlt : pathLt (dst ++ r.dropLast) (dst ++ r) = true := by
            have hsplit : r.dropLast ++ [r.getLast hrne] = r :=
              List.dropLast_append_getLast hrne
            have h2 := pathLt_append (dst ++ r.dropLast) [r.getLast hrne]
              (by simp)
            rw [List.append_assoc, hsplit] at h2
            exact h2
          have hdomp := (hdom (dst ++ r.dropLast)).mp
            ⟨by rw [hm2]; simp, pathIsPrefix_append dst r.dropLast⟩
          have hS : dst ++ r.dropLast ∈ S := by
            rcases List.mem_append.mp hdomp with h2 | h2
            · exact h2
            · exfalso
              rcases List.mem_cons.mp h2 with h3 | h3
              · rw [h3, pathLt_irrefl] at hlt
                exact Bool.noConfusion hlt
              · have hsort3 := (List.pairwise_append.mp hsort).2.1
                have hqlt := (List.sorted_cons.mp hsort3).1 _ h3
                have h4 := pathLt_trans hlt hqlt
                rw [pathLt_irrefl] at h4
                exact Bool.noConfusion h4
          rw [hinv (dst' ++ r.dropLast)]
          unfold mirrorLookup
          rw [if_neg (append_ne_left hrd),
            if_pos (pathIsPrefix_append dst' r.dropLast), List.drop_left,
            if_pos hS, hm2]
      have hentry : entryOfWalk fs dst (dst ++ r) = nodeEntry dst (dst ++ r) n := by
        unfold entryOfWalk
        rw [hn]
        rfl
      have hcj : cleanJoin dst' r = dst' ++ r :=
        cleanJoin_of_clean dst' r hdst' hrclean
      have hrel : relName dst (dst ++ r) = r := by
        unfold relName
        rw [List.drop_left, if_neg hrne]
      have hstep : extractEntry dst' (fs', []) (nodeEntry dst (dst ++ r) n) =
          .ok (fs'.insert (dst' ++ r) n, []) := by
        cases n with
        | dir m =>
          unfold nodeEntry extractEntry
          simp only [hrel, hcj]
          rw [hfresh, hparent]
          simp
        | file m c =>
          unfold nodeEntry extractEntry
          simp only [hrel, hcj]
          rw [hparent]
          simp only [if_true]
          rw [hfresh]
        | symlink t =>
          unfold nodeEntry extractEntry
          simp only [hrel, hcj]
          rw [hfresh, hparent]
          simp
      have hinv2 : ∀ q2, (fs'.insert (dst' ++ r) n).lookup q2 =
          mirrorLookup fs dst dst' dm' (S ++ [dst ++ r]) q2 := by
        intro q2
        rw [FS.lookup_insert]
        by_cases hq2 : dst' ++ r = q2
        · rw [if_pos hq2, ← hq2]
          unfold mirrorLookup
          rw [if_neg (append_ne_left hrne),
            if_pos (pathIsPrefix_append dst' r), List.drop_left,
            if_pos (by simp), hn]
        · rw [if_neg hq2, hinv q2,
            mirrorLookup_append_fresh fs dst dst' dm' S q2
              (fun hc => hq2 hc.symm)]
      have hdom2 : ∀ x, (fs.lookup x ≠ none ∧ pathIsPrefix dst x = true) ↔
          x ∈ (S ++ [dst ++ r]) ++ rest := by
        intro x
        rw [List.append_assoc]
        exact hdom x
      have hsort2 : ((S ++ [dst ++ r]) ++ rest).Sorted pathRel := by
        rw [List.append_assoc]
        exact hsort
      have hnodup2 : ((S ++ [dst ++ r]) ++ rest).Nodup := by
        rw [List.append_assoc]
        exact hnodup
      obtain ⟨fs'', hrun, hinv''⟩ := ih (S ++ [dst ++ r])
        (fs'.insert (dst' ++ r) n) hdom2 hsort2 hnodup2 hinv2
      refine ⟨fs'', ?_, ?_⟩
      · simp only [List.map_cons, hentry]
        unfold extractEntries
        rw [hstep]
        exact hrun
      · intro q2
        have h2 := hinv'' q2
        rw [List.append_assoc] at h2
        exact h2

/-- Claim C5 (round trip): extract a well-formed single-layer archive
(regular files, directories and symbolic links only, with clean non-empty
entry names) into a fresh directory; creating a new archive from the
result and re-extracting it into another fresh directory reproduces the
same content: node-for-node identical (same bytes, modes, link targets) at
every relative path. -/
theorem c5_round_trip (A : TarStream) (dst dst' : Path) (dm dm' : Nat)
    (fs : FS) (hdst : pathClean dst = true) (hdst' : pathClean dst' = true)
    (hok : ∀ e ∈ A.entries, entryOk e = true)
    (hex : ExtractTarGz A dst [(dst, .dir dm)] = .ok fs) :
    ∃ es, CreateTarGz fs dst (fun _ => false) = .ok es ∧
      ∃ fs', ExtractTarGz { entries := es, ending := .trailer } dst'
          [(dst', .dir dm')] = .ok fs' ∧
        ∀ p : Path, p ≠ [] →
          fs'.lookup (dst' ++ p) = fs.lookup (dst ++ p) := by
  have ht := extract_treeFS hdst hok hex
  have hdom : ∀ x, (fs.lookup x ≠ none ∧ pathIsPrefix dst x = true) ↔
      x ∈ ([] : List Path) ++ walkList fs dst := by
    intro x
    rw [List.nil_append]
    unfold walkList
    rw [mem_sortPaths, List.mem_filter, mem_keys]
  have hfilnodup : ((FS.keys fs).filter (pathIsPrefix dst)).Nodup :=
    (keys_nodup fs).filter _
  have hsort : (([] : List Path) ++ walkList fs dst).Sorted pathRel := by
    rw [List.nil_append]
    exact sortPaths_sorted hfilnodup
  have hnodup : (([] : List Path) ++ walkList fs dst).Nodup := by
    rw [List.nil_append]
    exact sortPaths_nodup hfilnodup
  obtain ⟨fs'', hrun, hinv⟩ := extract_mirror_aux hdst' ht
    (walkList fs dst) [] [(dst', .dir dm')] hdom hsort hnodup
    (mirrorLookup_init fs dst dst' dm')
  have hwalkdom : ∀ q ∈ walkList fs dst, fs.lookup q ≠ none :=
    fun q hq => ((hdom q).mpr (by simpa using hq)).1
  have hwalk : CreateTarGzWalk fs dst (fun _ => false) =
      ((walkList fs dst).map (entryOfWalk fs dst), false) := by
    unfold CreateTarGzWalk
    exact walkPaths_noFail hwalkdom
  refine ⟨(walkList fs dst).map (entryOfWalk fs dst), ?_, fs'', ?_, ?_⟩
  · unfold CreateTarGz
    rw [hwalk]
  · unfold ExtractTarGz
    simp only []
    rw [hrun]
    rfl
  · intro p hp
    rw [hinv (dst' ++ p)]
    unfold mirrorLookup
    rw [if_neg (append_ne_left hp), if_pos (pathIsPrefix_append dst' p),
      List.drop_left]
    by_cases hm : dst ++ p ∈ ([] : List Path) ++ walkList fs dst
    · rw [if_pos hm]
    · rw [if_neg hm]
      cases hl : fs.lookup (dst ++ p) with
      | none => rfl
      | some nn =>
        exact absurd ((hdom (dst ++ p)).mp
          ⟨by rw [hl]; simp, pathIsPrefix_append dst p⟩) hm

/-- Claim C5 witness: the round trip applied to a concrete archive with a
directory, a regular file and a symlink, with every hypothesis discharged
by evaluation. -/
theorem c5_witness :
    (pathClean ["w"] = true ∧ pathClean ["v"] = true ∧
      (∀ e ∈ c5wStream.entries, entryOk e = true) ∧
      ExtractTarGz c5wStream ["w"] [(["w"], .dir 493)] = .ok c5wFS) ∧
    (∃ es, CreateTarGz c5wFS ["w"] (fun _ => false) = .ok es ∧
      ∃ fs', ExtractTarGz { entries := es, ending := .trailer } ["v"]
          [(["v"], .dir 420)] = .ok fs' ∧
        ∀ p : Path, p ≠ [] →
          fs'.lookup (["v"] ++ p) = FS.lookup c5wFS (["w"] ++ p)) :=
  ⟨⟨by decide, by decide, by decide, by rfl⟩,
    c5_round_trip c5wStream ["w"] ["v"] 493 420 c5wFS
      (by decide) (by decide) (by decide) (by rfl)⟩

end Acbrun
